import Mathlib

/-!
# QTau editor session (`editor/Session.cpp`)

A shallow embedding of `qtauSession`: the note store (`noteMap`), the four
reversible note events and their appliers, the dispatcher `processEvent`,
the undo/redo history with its save point, the derived `modified` flag, the
ordered export `ustRef`, the load of a document (`loadUST`), the two audio
source handles and the playback state with its requests.

Conventions of the embedding

* `QMap<quint64, ust_note>` is an association list kept strictly ascending by
  key (`QMap.WF`); `QMap::keys()` is ascending, as in Qt.
* an `int` is a 32-bit two's complement integer (`CInt`): a value is its bit
  pattern, `+` and `-` wrap around modulo `2^32`, and `CInt.toInt` is the
  signed value, which the comparisons use.
* `ust_note` is declared in a header that is not part of the sources at hand;
  its default-constructed value (what `QMap::operator[]` inserts for a key
  that is missing) is the parameter `d0` of every function that may reach it.
* a stack (`QStack`) is a list whose head is the top.
* `emit` appends to `signals`; `vsLog::e` and `vsLog::s` append to `vsLog`.
-/

namespace QTau

/-! ## Machine integers -/

/-- The C++ type `int`, 32 bits wide, as its bit pattern: addition and
subtraction are taken modulo `2^32`, which is how `+=` and `-=` wrap around. -/
abbrev CInt := Fin 4294967296

/-- The signed value of an `int`: the bit patterns from `2^31` on stand for
the negative numbers. -/
def CInt.toInt (x : CInt) : Int :=
  if x.val < 2147483648 then (x.val : Int) else (x.val : Int) - 4294967296

/-! ## Notes and the note store -/

/-- Modelled from the spec: the note record `ust_note`, declared in a header
that is not part of the sources at hand, with the fields of the spec's Note,
which are the fields `Session.cpp` reads and writes; their order is the order
of the five arguments of the constructor used by `applyEvent_NoteAdded`. -/
structure ust_note where
  id : Nat
  lyric : String
  pulseOffset : CInt
  pulseLength : CInt
  keyNumber : CInt
deriving DecidableEq

/-- Modelled from the spec: the document `ust`, declared in a header that is
not part of the sources at hand; `Session.cpp` uses its tempo and its note
list. -/
structure ust where
  tempo : CInt
  notes : List ust_note
deriving DecidableEq

/-- The type `QMap<quint64, ust_note>`: key and value pairs. -/
abbrev QMap := List (Nat × ust_note)

namespace QMap

/-- The invariant of a `QMap`: keys strictly ascending (so unique). -/
def WF (m : QMap) : Prop := (m.map Prod.fst).Pairwise (· < ·)

instance (m : QMap) : Decidable (WF m) := by unfold WF; infer_instance

/-- `QMap::value` as an option (`none` when the key is missing). -/
def value? (k : Nat) : QMap → Option ust_note
  | [] => none
  | (k', v) :: t => if k = k' then some v else value? k t

/-- `QMap::contains`. -/
def contains (k : Nat) (m : QMap) : Bool := (value? k m).isSome

/-- `QMap::insert`, also the effect of `map[k] = v`: replaces the value of an
existing key, otherwise adds the pair at its place in key order. -/
def insert (k : Nat) (v : ust_note) : QMap → QMap
  | [] => [(k, v)]
  | (k', v') :: t =>
    if k < k' then (k, v) :: (k', v') :: t
    else if k = k' then (k, v) :: t
    else (k', v') :: insert k v t

/-- `QMap::remove`. -/
def remove (k : Nat) : QMap → QMap
  | [] => []
  | (k', v') :: t => if k = k' then remove k t else (k', v') :: remove k t

/-- `QMap::keys`: the keys in ascending order. -/
def keys (m : QMap) : List Nat := m.map Prod.fst

/-- `QMap::isEmpty`. -/
def isEmpty (m : QMap) : Bool := List.isEmpty m

/-- Reading `map[k]` on a non-const map: the stored value, or the
default-constructed `d0` (which `operator[]` then also inserts). -/
def ref (d0 : ust_note) (k : Nat) (m : QMap) : ust_note := (value? k m).getD d0

/-- The statement pattern `ust_note &n = map[k]; n.field = ...`: the value at
`k` (default-constructed and inserted when missing) is replaced by `f` of it. -/
def modify (d0 : ust_note) (k : Nat) (f : ust_note → ust_note) (m : QMap) : QMap :=
  insert k (f (ref d0 k m)) m

end QMap

/-! ## Events -/

/-- One record of `qtauEvent_NoteAddition::noteAddVector`. -/
structure noteAddData where
  id : Nat
  lyrics : String
  pulseLength : CInt
  pulseOffset : CInt
  keyNumber : CInt
deriving DecidableEq

/-- One record of `qtauEvent_NoteResize::noteResizeVector`. -/
structure noteResizeData where
  id : Nat
  offset : CInt
  length : CInt
  prevOffset : CInt
  prevLength : CInt
deriving DecidableEq

/-- One record of `qtauEvent_NoteMove::noteMoveVector`. -/
structure noteMoveData where
  id : Nat
  pulseOffDelta : CInt
  keyNumber : CInt
  prevKeyNumber : CInt
deriving DecidableEq

/-- One record of `qtauEvent_NoteText::noteTextVector`. -/
structure noteTextData where
  id : Nat
  txt : String
  prevTxt : String
deriving DecidableEq

/-- Modelled from the spec: what an event carries, by its `type()`: the five
members of `ENoteEvents` that `processEvent` switches on, each with the
changeset its applier reads (an addition also with `isDeleteEvent()`), and
`other` for any other type value. The event classes are declared in a header
that is not part of the sources at hand. -/
inductive EventData where
  | add (changeset : List noteAddData) (deleteEvent : Bool)
  | move (changeset : List noteMoveData)
  | resize (changeset : List noteResizeData)
  | text (changeset : List noteTextData)
  | effect
  | other (type : Int)
deriving DecidableEq

/-- Modelled from the spec: a `qtauEvent`, with its data, the direction flag
read by `isForward()` and the flag read by `isSavePoint()`. -/
structure qtauEvent where
  data : EventData
  forward : Bool
  savePoint : Bool
deriving DecidableEq

/-- The playback states `EAudioPlayback`. -/
inductive EAudioPlayback where
  | noAudio | needsSynth | playing | paused | stopped | repeating
deriving DecidableEq

/-- The Qt signals the session emits. -/
inductive Signal where
  | dataReloaded
  | onEvent (e : qtauEvent)
  | undoStatus (b : Bool)
  | redoStatus (b : Bool)
  | modifiedStatus (b : Bool)
  | playbackStateChanged (st : EAudioPlayback)
  | vocalSet
  | musicSet
  | requestSynthesis
  | requestStartPlayback
  | requestPausePlayback
  | requestStopPlayback
  | requestResetPlayback
  | requestRepeatPlayback
deriving DecidableEq

/-- The state of a `qtauSession`, with the two stacks of its base class
`qtauEventManager` (`events` is the past, `futureEvents` the undone events;
the head of each list is the top of the stack). The audio sources are
handles: `none` is the null pointer. -/
structure qtauSession where
  events : List qtauEvent
  futureEvents : List qtauEvent
  noteMap : QMap
  data : ust
  docName : String
  filePath : String
  isModified : Bool
  hadSavePoint : Bool
  playSt : EAudioPlayback
  vocalWave : Option Nat
  musicWave : Option Nat
  signals : List Signal
  vsLog : List String
deriving DecidableEq

/-! ## The event appliers -/

/-- The note `ust_note(change.id, change.lyrics, change.pulseOffset,
change.pulseLength, change.keyNumber)` built in `applyEvent_NoteAdded`. -/
def noteOfAdd (change : noteAddData) : ust_note :=
  ust_note.mk change.id change.lyrics change.pulseOffset change.pulseLength change.keyNumber

/-- The local `reallyForward` of `applyEvent_NoteAdded`. -/
def reallyForward (isForward isDeleteEvent : Bool) : Bool :=
  (isForward && !isDeleteEvent) || (!isForward && isDeleteEvent)

/-- The function `qtauSession::applyEvent_NoteAdded` on the note map. -/
def applyEvent_NoteAdded (changeset : List noteAddData) (isForward isDeleteEvent : Bool)
    (noteMap : QMap) : QMap :=
  if reallyForward isForward isDeleteEvent then
    changeset.foldl (fun m change => QMap.insert change.id (noteOfAdd change) m) noteMap
  else
    changeset.foldl (fun m change => QMap.remove change.id m) noteMap

/-- The body of the loop of `applyEvent_NoteResized` on the note `n`. -/
def resizeNote (isForward : Bool) (change : noteResizeData) (n : ust_note) : ust_note :=
  if isForward then
    { n with pulseOffset := change.offset, pulseLength := change.length }
  else
    { n with pulseOffset := change.prevOffset, pulseLength := change.prevLength }

/-- The function `qtauSession::applyEvent_NoteResized` on the note map. -/
def applyEvent_NoteResized (d0 : ust_note) (changeset : List noteResizeData)
    (isForward : Bool) (noteMap : QMap) : QMap :=
  changeset.foldl (fun m change => QMap.modify d0 change.id (resizeNote isForward change) m)
    noteMap

/-- The body of the loop of `applyEvent_NoteMoved` on the note `n`; `+=` and
`-=` are the `int` operations, which wrap around. -/
def moveNote (isForward : Bool) (change : noteMoveData) (n : ust_note) : ust_note :=
  if isForward then
    { n with pulseOffset := n.pulseOffset + change.pulseOffDelta,
             keyNumber := change.keyNumber }
  else
    { n with pulseOffset := n.pulseOffset - change.pulseOffDelta,
             keyNumber := change.prevKeyNumber }

/-- The function `qtauSession::applyEvent_NoteMoved` on the note map. -/
def applyEvent_NoteMoved (d0 : ust_note) (changeset : List noteMoveData)
    (isForward : Bool) (noteMap : QMap) : QMap :=
  changeset.foldl (fun m change => QMap.modify d0 change.id (moveNote isForward change) m)
    noteMap

/-- The body of the loop of `applyEvent_NoteLyrics` on the note `n`. -/
def retextNote (isForward : Bool) (change : noteTextData) (n : ust_note) : ust_note :=
  if isForward then { n with lyric := change.txt } else { n with lyric := change.prevTxt }

/-- The function `qtauSession::applyEvent_NoteLyrics` on the note map. -/
def applyEvent_NoteLyrics (d0 : ust_note) (changeset : List noteTextData)
    (isForward : Bool) (noteMap : QMap) : QMap :=
  changeset.foldl (fun m change => QMap.modify d0 change.id (retextNote isForward change) m)
    noteMap

/-- The function `qtauSession::applyEvent_NoteEffects`: an empty body. -/
def applyEvent_NoteEffects (noteMap : QMap) : QMap := noteMap

/-! ## Playback state and status -/

/-- The function `qtauSession::setPlaybackState`. -/
def setPlaybackState (state : EAudioPlayback) (s : qtauSession) : qtauSession :=
  if state ≠ s.playSt then
    { s with playSt := state, signals := s.signals ++ [Signal.playbackStateChanged state] }
  else s

/-- Modelled from the spec: `canUndo()` of `qtauEventManager`, which is not
part of the sources at hand: undo is possible unless `past` is empty. -/
def canUndo (s : qtauSession) : Bool := !s.events.isEmpty

/-- Modelled from the spec: `canRedo()` of `qtauEventManager`, which is not
part of the sources at hand: redo is possible unless `future` is empty. -/
def canRedo (s : qtauSession) : Bool := !s.futureEvents.isEmpty

/-- The function `qtauSession::stackChanged`. -/
def stackChanged (s : qtauSession) : qtauSession :=
  let isModified :=
    match s.events with
    | top :: _ => !top.savePoint
    | [] => s.hadSavePoint
  let s1 := { s with
    isModified := isModified,
    signals := s.signals ++ [Signal.undoStatus (canUndo s), Signal.redoStatus (canRedo s),
      Signal.modifiedStatus isModified] }
  if QMap.isEmpty s1.noteMap && s1.musicWave.isNone then
    setPlaybackState EAudioPlayback.noAudio s1
  else
    setPlaybackState EAudioPlayback.needsSynth s1

/-- The function `qtauSession::setModified`. -/
def setModified (m : Bool) (s : qtauSession) : qtauSession :=
  if m ≠ s.isModified then
    { s with isModified := m, signals := s.signals ++ [Signal.modifiedStatus m] }
  else s

/-- Modelled from the spec: the setter `qtauEvent::setSavePoint(b)`, declared in
a header that is not part of the sources at hand: it writes the save-point
flag of the event (`setSavePoint()` without argument sets it). -/
def setSavePoint (b : Bool) (e : qtauEvent) : qtauEvent := { e with savePoint := b }

/-- The call `events.top()->setSavePoint()` on a stack: the flag of the top
event is set. -/
def setTopSavePoint : List qtauEvent → List qtauEvent
  | [] => []
  | top :: rest => setSavePoint true top :: rest

/-- The function `qtauSession::setSaved`. -/
def setSaved (s : qtauSession) : qtauSession :=
  if canUndo s then
    let s1 := { s with events := s.events.map (setSavePoint false) }
    let s2 :=
      if !s1.futureEvents.isEmpty then
        { s1 with futureEvents := s1.futureEvents.map (setSavePoint false) }
      else s1
    let s3 := { s2 with hadSavePoint := true }
    let s4 := { s3 with events := setTopSavePoint s3.events }
    setModified false s4
  else
    { s with vsLog := s.vsLog ++ ["Saving an empty session?"] }

/-! ## The dispatcher and the history -/

/-- The function `qtauSession::processEvent`: the result and the session
afterwards. The `static_cast` of a non-null event is never null, so the
`could not convert` branches are not reachable and are left out. -/
def processEvent (d0 : ust_note) (e : Option qtauEvent) (s : qtauSession) :
    Bool × qtauSession :=
  match e with
  | none => (false, { s with vsLog := s.vsLog ++ ["Session can't process a zero event! Ignoring..."] })
  | some ev =>
    match ev.data with
    | EventData.add changeset isDeleteEvent =>
      (true, { s with noteMap := applyEvent_NoteAdded changeset ev.forward isDeleteEvent s.noteMap })
    | EventData.move changeset =>
      (true, { s with noteMap := applyEvent_NoteMoved d0 changeset ev.forward s.noteMap })
    | EventData.resize changeset =>
      (true, { s with noteMap := applyEvent_NoteResized d0 changeset ev.forward s.noteMap })
    | EventData.text changeset =>
      (true, { s with noteMap := applyEvent_NoteLyrics d0 changeset ev.forward s.noteMap })
    | EventData.effect =>
      (true, { s with noteMap := applyEvent_NoteEffects s.noteMap })
    | EventData.other _ =>
      (false, { s with vsLog := s.vsLog ++ ["Session received unknown event type from UI"] })

/-- Modelled from the spec: `storeEvent` of `qtauEventManager`, which is not
part of the sources at hand: `commit(event)` pushes the applied event onto
`past`, clears `future`, and triggers the status recomputation. -/
def storeEvent (e : qtauEvent) (s : qtauSession) : qtauSession :=
  stackChanged { s with events := e :: s.events, futureEvents := [] }

/-- The function `qtauSession::onUIEvent`. -/
def onUIEvent (d0 : ust_note) (e : Option qtauEvent) (s : qtauSession) : qtauSession :=
  match e with
  | none => s
  | some ev =>
    let r := processEvent d0 (some ev) s
    if r.1 then storeEvent ev r.2 else r.2

/-- Modelled from the spec: the event applied `with direction reversed`, its
forward flag negated. -/
def reversed (e : qtauEvent) : qtauEvent := { e with forward := !e.forward }

/-- Modelled from the spec: `undo()` of `qtauEventManager`, which is not part
of the sources at hand: fails if `past` is empty; else pops the top event,
applies it with direction reversed, pushes it onto `future` and recomputes
the derived status. -/
def undo (d0 : ust_note) (s : qtauSession) : qtauSession :=
  match s.events with
  | [] => s
  | e :: rest =>
    let r := processEvent d0 (some (reversed e)) { s with events := rest }
    stackChanged { r.2 with futureEvents := e :: r.2.futureEvents }

/-- Modelled from the spec: `redo()` of `qtauEventManager`, which is not part
of the sources at hand: fails if `future` is empty; else pops the top event,
applies it with its stored direction, pushes it onto `past` and recomputes
the derived status. -/
def redo (d0 : ust_note) (s : qtauSession) : qtauSession :=
  match s.futureEvents with
  | [] => s
  | e :: rest =>
    let r := processEvent d0 (some e) { s with futureEvents := rest }
    stackChanged { r.2 with events := e :: r.2.events }

/-! ## The ordered export -/

/-- The comparison `dataNotesComparison`. -/
def dataNotesComparison (n1 n2 : ust_note) : Bool :=
  decide (n1.pulseOffset.toInt < n2.pulseOffset.toInt)

/-- Insertion of `x` into a sorted list, after the elements that are not
greater than `x` come first: before the first `y` with `¬ less y x`. -/
def stableInsert {α : Type} (less : α → α → Bool) (x : α) : List α → List α
  | [] => [x]
  | y :: ys => if less y x then y :: stableInsert less x ys else x :: y :: ys

/-- Qt's `qStableSort(begin, end, less)`: a stable sort by the strict
comparison `less` (here by insertion, from the back; equal elements keep
their order). -/
def qStableSort {α : Type} (less : α → α → Bool) : List α → List α
  | [] => []
  | x :: xs => stableInsert less x (qStableSort less xs)

/-- The function `qtauSession::ustRef`: `data.notes` is cleared, refilled with
`noteMap[key]` for the keys of `noteMap.keys()` in order, and sorted. Every
such key is in the map, so `operator[]` leaves `noteMap` as it is. -/
def ustRef (d0 : ust_note) (s : qtauSession) : qtauSession :=
  let cleared : List ust_note := []
  let filled := (QMap.keys s.noteMap).foldl
    (fun notes key => notes ++ [QMap.ref d0 key s.noteMap]) cleared
  { s with data := { s.data with notes := qStableSort dataNotesComparison filled } }

/-! ## Events that agree with the store they are applied to -/

/-- Whether the change records of `e` agree with the store `S` that `e` is
about to be applied to, in the direction `e.forward`:
* an addition that really adds: no id of the changeset is in `S`;
* an addition that really removes: every record is the note `S` holds under
  its id;
* resize, move, retext: every id is in `S` and the values the event restores
  in the opposite direction (`prevOffset` and `prevLength`, `prevKeyNumber`,
  `prevTxt` when `e` goes forward) are the note's current values.
An effect event and an event of another type carry no change record. -/
def agrees (S : QMap) (e : qtauEvent) : Bool :=
  match e.data with
  | EventData.add changeset isDeleteEvent =>
    if reallyForward e.forward isDeleteEvent then
      changeset.all (fun c => !QMap.contains c.id S)
    else
      changeset.all (fun c => decide (QMap.value? c.id S = some (noteOfAdd c)))
  | EventData.resize changeset =>
    changeset.all (fun c =>
      match QMap.value? c.id S with
      | none => false
      | some n =>
        if e.forward then
          decide (n.pulseOffset = c.prevOffset) && decide (n.pulseLength = c.prevLength)
        else decide (n.pulseOffset = c.offset) && decide (n.pulseLength = c.length))
  | EventData.move changeset =>
    changeset.all (fun c =>
      match QMap.value? c.id S with
      | none => false
      | some n =>
        if e.forward then decide (n.keyNumber = c.prevKeyNumber)
        else decide (n.keyNumber = c.keyNumber))
  | EventData.text changeset =>
    changeset.all (fun c =>
      match QMap.value? c.id S with
      | none => false
      | some n =>
        if e.forward then decide (n.lyric = c.prevTxt) else decide (n.lyric = c.txt))
  | EventData.effect => true
  | EventData.other _ => true

/-- Whether each event of `es`, submitted in turn through `onUIEvent` from the
session `s`, is processed with success and agrees with the store it meets. -/
def commitsAgree (d0 : ust_note) : qtauSession → List qtauEvent → Bool
  | _, [] => true
  | s, e :: es =>
    (processEvent d0 (some e) s).1 && agrees s.noteMap e
      && commitsAgree d0 (onUIEvent d0 (some e) s) es

/-- The session after the events of `es` were submitted in turn. -/
def submitAll (d0 : ust_note) (es : List qtauEvent) (s : qtauSession) : qtauSession :=
  es.foldl (fun s e => onUIEvent d0 (some e) s) s

/-- The value of `modified` that the history determines: with a non-empty
past, whether its top is not the save point; with an empty past, the flag
`hadSavePoint`. -/
def derivedModified (events : List qtauEvent) (hadSavePoint : Bool) : Bool :=
  match events with
  | top :: _ => !top.savePoint
  | [] => hadSavePoint

/-! ## Change records, one at a time -/

/-- A change record of any of the four kinds of changeset. -/
inductive Change where
  | add (c : noteAddData) (isDeleteEvent : Bool)
  | move (c : noteMoveData)
  | resize (c : noteResizeData)
  | text (c : noteTextData)
deriving DecidableEq

/-- The change records an event carries, in the order of its changeset. -/
def changeRecords : EventData → List Change
  | EventData.add changeset isDeleteEvent => changeset.map (fun c => Change.add c isDeleteEvent)
  | EventData.move changeset => changeset.map Change.move
  | EventData.resize changeset => changeset.map Change.resize
  | EventData.text changeset => changeset.map Change.text
  | EventData.effect => []
  | EventData.other _ => []

/-- The id a change record refers to. -/
def Change.id : Change → Nat
  | Change.add c _ => c.id
  | Change.move c => c.id
  | Change.resize c => c.id
  | Change.text c => c.id

/-- The effect of one change record on the store: the body of the loop of
the applier of its kind. -/
def applyChange (d0 : ust_note) (isForward : Bool) : Change → QMap → QMap
  | Change.add c isDeleteEvent, m =>
    if reallyForward isForward isDeleteEvent then QMap.insert c.id (noteOfAdd c) m
    else QMap.remove c.id m
  | Change.move c, m => QMap.modify d0 c.id (moveNote isForward c) m
  | Change.resize c, m => QMap.modify d0 c.id (resizeNote isForward c) m
  | Change.text c, m => QMap.modify d0 c.id (retextNote isForward c) m

/-- Whether the event is a resize, a move or a retext. -/
def isResizeMoveText (e : qtauEvent) : Bool :=
  match e.data with
  | EventData.move _ => true
  | EventData.resize _ => true
  | EventData.text _ => true
  | _ => false

/-! ## The constructor and sample values -/

/-- The constructor `qtauSession::qtauSession`: both audio sources are
allocated (handles `0` and `1`), the tempo is 120. -/
def newSession : qtauSession :=
  { events := [], futureEvents := [], noteMap := [],
    data := { tempo := 120, notes := [] },
    docName := "Untitled", filePath := "",
    isModified := false, hadSavePoint := false,
    playSt := EAudioPlayback.noAudio,
    vocalWave := some 0, musicWave := some 1,
    signals := [], vsLog := [] }

/-- A note with id 1. -/
def sampleNote : ust_note := ust_note.mk 1 "la" 0 480 60

/-- A default-constructed note, for the examples. -/
def sampleDefault : ust_note := ust_note.mk 0 "" 0 0 0

/-- A session that holds `sampleNote` and has an empty history. -/
def sampleSession : qtauSession :=
  { newSession with noteMap := [(1, sampleNote)] }

/-- An event that adds a note with id 1. -/
def sampleAdd : qtauEvent :=
  { data := EventData.add [noteAddData.mk 1 "la" 480 0 60] false,
    forward := true, savePoint := false }

/-- An event that deletes the note with id 1. -/
def sampleDelete : qtauEvent :=
  { data := EventData.add [noteAddData.mk 1 "la" 480 0 60] true,
    forward := true, savePoint := false }

/-- An event that resizes note 1 from length 480 to length 960. -/
def sampleResize : qtauEvent :=
  { data := EventData.resize [noteResizeData.mk 1 0 960 0 480],
    forward := true, savePoint := false }

/-- An event that resizes a note with id 7. -/
def sampleResizeMissing : qtauEvent :=
  { data := EventData.resize [noteResizeData.mk 7 0 960 0 480],
    forward := true, savePoint := false }

/-- An event that moves note 1 by 240 pulses, from key 60 to key 62. -/
def sampleMove : qtauEvent :=
  { data := EventData.move [noteMoveData.mk 1 240 62 60],
    forward := true, savePoint := false }

/-- A session after one commit, a save and one undo: the past is empty and
a save has occurred. -/
def sampleSavedUndone : qtauSession :=
  undo sampleDefault (setSaved (onUIEvent sampleDefault (some sampleAdd) newSession))

/-- A session with two committed events. -/
def sampleEdited : qtauSession :=
  submitAll sampleDefault [sampleAdd, sampleResize] newSession

/-! ## Loading, audio sources and playback requests -/

/-- The loop of `util_makeAddNotesEvent` from the index `i` on: the note at
index `i` gets the id `i + 1`. -/
def makeAddChangeset (i : Nat) : List ust_note → List noteAddData
  | [] => []
  | n :: rest =>
    { id := i + 1, lyrics := n.lyric, pulseLength := n.pulseLength,
      pulseOffset := n.pulseOffset, keyNumber := n.keyNumber } :: makeAddChangeset (i + 1) rest

/-- The function `util_makeAddNotesEvent`. The event is built by
`new qtauEvent_NoteAddition(changeset)`; the constructor is declared in a
header that is not part of the sources at hand, and its defaults are modelled
from the spec: a fresh event goes forward, is no delete event and is no save
point. -/
def util_makeAddNotesEvent (u : ust) : qtauEvent :=
  { data := EventData.add (makeAddChangeset 0 u.notes) false,
    forward := true, savePoint := false }

/-- Modelled from the spec: `clearHistory()` of `qtauEventManager`, which is
not part of the sources at hand: it clears all history, the past and the
future. -/
def clearHistory (s : qtauSession) : qtauSession :=
  { s with events := [], futureEvents := [] }

/-- The call `applyEvent_NoteAdded(*event)` for an event object. -/
def applyAddedEvent (event : qtauEvent) (noteMap : QMap) : QMap :=
  match event.data with
  | EventData.add changeset isDeleteEvent =>
    applyEvent_NoteAdded changeset event.forward isDeleteEvent noteMap
  | _ => noteMap

/-- The function `qtauSession::loadUST`: the result and the session
afterwards. `file` is what the file gives: `none` when it cannot be opened,
else its text lines. The parser `ustFromStrings` and Qt's
`QFileInfo(fileName).baseName()` are parameters. -/
def loadUST (ustFromStrings : List String → ust) (baseName : String → String)
    (fileName : String) (file : Option (List String)) (s : qtauSession) :
    Bool × qtauSession :=
  match file with
  | none => (false, { s with vsLog := s.vsLog ++ ["Could not open " ++ fileName] })
  | some ustStrings =>
    if !ustStrings.isEmpty then
      let tmp_u := ustFromStrings ustStrings
      if tmp_u.notes.length > 0 then
        let s1 := { s with vsLog := s.vsLog ++ ["Successfully loaded " ++ fileName] }
        let s2 := clearHistory s1
        let s3 := { s2 with data := tmp_u, docName := baseName fileName, filePath := fileName }
        let loadNotesChangeset := util_makeAddNotesEvent s3.data
        let s4 := { s3 with noteMap := applyAddedEvent loadNotesChangeset s3.noteMap }
        let s5 := { s4 with
          signals := s4.signals ++ [Signal.dataReloaded, Signal.onEvent loadNotesChangeset] }
        let s6 :=
          if !s5.data.notes.isEmpty then setPlaybackState EAudioPlayback.needsSynth s5
          else s5
        (true, s6)
      else
        (false, { s with vsLog := s.vsLog ++ ["Could not get any notes from " ++ fileName] })
    else
      (false, { s with vsLog := s.vsLog ++ ["Could not read text lines from " ++ fileName] })

/-- The function `qtauSession::setSynthesizedVocal`; `a` is the address of the
source passed by reference. -/
def setSynthesizedVocal (a : Nat) (s : qtauSession) : qtauSession :=
  let s1 := if s.vocalWave ≠ some a then { s with vocalWave := none } else s
  let s2 := if s1.vocalWave.isNone then { s1 with vocalWave := some a } else s1
  { s2 with signals := s2.signals ++ [Signal.vocalSet] }

/-- The function `qtauSession::setBackgroundAudio`; `a` is the address of the
source passed by reference. -/
def setBackgroundAudio (a : Nat) (s : qtauSession) : qtauSession :=
  let s1 := if s.musicWave ≠ some a then { s with musicWave := none } else s
  let s2 := if s1.musicWave.isNone then { s1 with musicWave := some a } else s1
  { s2 with signals := s2.signals ++ [Signal.musicSet] }

/-- The function `qtauSession::startPlayback`. In the logged text `%1` is
replaced by the character `(char)playSt`; the numeric values of
`EAudioPlayback` are declared in a header that is not part of the sources at
hand, so the character of a state is the parameter `stateChar`. -/
def startPlayback (stateChar : EAudioPlayback → Char) (s : qtauSession) : qtauSession :=
  match s.playSt with
  | EAudioPlayback.playing => { s with signals := s.signals ++ [Signal.requestPausePlayback] }
  | EAudioPlayback.repeating => { s with signals := s.signals ++ [Signal.requestPausePlayback] }
  | EAudioPlayback.paused => { s with signals := s.signals ++ [Signal.requestStartPlayback] }
  | EAudioPlayback.stopped => { s with signals := s.signals ++ [Signal.requestStartPlayback] }
  | EAudioPlayback.needsSynth => { s with signals := s.signals ++ [Signal.requestSynthesis] }
  | EAudioPlayback.noAudio =>
    { s with vsLog := s.vsLog
        ++ ["Session was asked to start playback when nothing to play! "
              ++ String.singleton (stateChar s.playSt)] }

/-- The sessions that can be reached from the constructor through
`onUIEvent`, `undo`, `redo`, `setSaved`, `loadUST`, `setSynthesizedVocal`,
`setBackgroundAudio` and `setPlaybackState`, called with any arguments. -/
inductive Reachable (d0 : ust_note) (ustFromStrings : List String → ust)
    (baseName : String → String) : qtauSession → Prop where
  | create : Reachable d0 ustFromStrings baseName newSession
  | onUIEvent (e : Option qtauEvent) (s : qtauSession) :
      Reachable d0 ustFromStrings baseName s →
      Reachable d0 ustFromStrings baseName (onUIEvent d0 e s)
  | undo (s : qtauSession) :
      Reachable d0 ustFromStrings baseName s →
      Reachable d0 ustFromStrings baseName (undo d0 s)
  | redo (s : qtauSession) :
      Reachable d0 ustFromStrings baseName s →
      Reachable d0 ustFromStrings baseName (redo d0 s)
  | setSaved (s : qtauSession) :
      Reachable d0 ustFromStrings baseName s →
      Reachable d0 ustFromStrings baseName (setSaved s)
  | loadUST (fileName : String) (file : Option (List String)) (s : qtauSession) :
      Reachable d0 ustFromStrings baseName s →
      Reachable d0 ustFromStrings baseName (loadUST ustFromStrings baseName fileName file s).2
  | setSynthesizedVocal (a : Nat) (s : qtauSession) :
      Reachable d0 ustFromStrings baseName s →
      Reachable d0 ustFromStrings baseName (setSynthesizedVocal a s)
  | setBackgroundAudio (a : Nat) (s : qtauSession) :
      Reachable d0 ustFromStrings baseName s →
      Reachable d0 ustFromStrings baseName (setBackgroundAudio a s)
  | setPlaybackState (st : EAudioPlayback) (s : qtauSession) :
      Reachable d0 ustFromStrings baseName s →
      Reachable d0 ustFromStrings baseName (setPlaybackState st s)

/-! ## Sample documents -/

/-- A parsed document with one note. -/
def sampleDocOne : ust :=
  { tempo := 120, notes := [ust_note.mk 0 "la" 0 480 60] }

/-- A parsed document with two notes. -/
def sampleDocTwo : ust :=
  { tempo := 120, notes := [ust_note.mk 0 "do" 0 480 60, ust_note.mk 0 "re" 480 480 62] }

/-- A parser for the examples: the file with the one line `two` holds
`sampleDocTwo`, the file with the one line `one` holds `sampleDocOne`, and no
note is found in any other file. -/
def sampleParse (ustStrings : List String) : ust :=
  if ustStrings = ["two"] then sampleDocTwo
  else if ustStrings = ["one"] then sampleDocOne
  else { tempo := 120, notes := [] }

/-- A base name for the examples: the file name as it is. -/
def sampleBaseName (fileName : String) : String := fileName

/-- A freshly constructed session after the two-note document was loaded. -/
def sampleLoadedTwo : qtauSession :=
  (loadUST sampleParse sampleBaseName "two.ust" (some ["two"]) newSession).2

/-- A note with id 1 at the largest pulse offset an `int` holds. -/
def sampleNoteMax : ust_note := ust_note.mk 1 "la" 2147483647 480 60

/-- A move record for note 1: one pulse later, from key 60 to key 62. -/
def sampleMoveOne : noteMoveData := noteMoveData.mk 1 1 62 60

/-- A store with three notes, two of them at the same pulse offset. -/
def sampleStoreThree : QMap :=
  [(1, ust_note.mk 1 "mi" 480 240 64), (2, ust_note.mk 2 "do" 0 480 60),
   (3, ust_note.mk 3 "so" 480 240 67)]

/-! ## The note store: lemmas -/

namespace QMap

theorem value?_eq_none_of_not_mem_keys {k : Nat} {m : QMap} (h : k ∉ keys m) :
    value? k m = none := by
  induction m with
  | nil => rfl
  | cons p t ih =>
    obtain ⟨k', v⟩ := p
    simp only [keys, List.map_cons, List.mem_cons, not_or] at h
    simp only [value?, if_neg h.1]
    exact ih h.2

theorem mem_keys_of_value?_eq_some {k : Nat} {m : QMap} {v : ust_note}
    (h : value? k m = some v) : k ∈ keys m := by
  by_contra hk
  rw [value?_eq_none_of_not_mem_keys hk] at h
  exact Option.noConfusion h

theorem value?_insert (k k' : Nat) (v : ust_note) (m : QMap) :
    value? k (insert k' v m) = if k = k' then some v else value? k m := by
  induction m with
  | nil => simp [insert, value?]
  | cons p t ih =>
    obtain ⟨k₁, v₁⟩ := p
    by_cases hk : k = k'
    · subst hk
      by_cases h1 : k < k₁
      · simp [insert, value?, h1]
      · by_cases h2 : k = k₁
        · simp [insert, value?, h2]
        · simp [insert, value?, h1, h2, ih]
    · by_cases h1 : k' < k₁
      · simp [insert, value?, h1, hk]
      · by_cases h2 : k' = k₁
        · subst h2; simp [insert, value?, hk]
        · simp [insert, value?, h1, h2, hk, ih]

theorem value?_remove (k k' : Nat) (m : QMap) :
    value? k (remove k' m) = if k = k' then none else value? k m := by
  induction m with
  | nil => simp [remove, value?]
  | cons p t ih =>
    obtain ⟨k₁, v₁⟩ := p
    by_cases hk : k = k'
    · subst hk
      by_cases h2 : k = k₁
      · subst h2; simpa [remove] using ih
      · simp [remove, value?, h2, ih]
    · by_cases h2 : k' = k₁
      · subst h2; simp [remove, value?, hk, ih]
      · simp [remove, value?, h2, hk, ih]

theorem keys_insert_subset (k k' : Nat) (v : ust_note) (m : QMap)
    (h : k ∈ keys (insert k' v m)) : k = k' ∨ k ∈ keys m := by
  induction m with
  | nil => simpa [insert, keys] using h
  | cons p t ih =>
    obtain ⟨k₁, v₁⟩ := p
    simp only [insert] at h
    split_ifs at h with h1 h2
    · simpa [keys] using h
    · subst h2; simp [keys] at h ⊢; tauto
    · simp only [keys, List.map_cons, List.mem_cons] at h ih ⊢
      rcases h with h | h
      · exact Or.inr (Or.inl h)
      · rcases ih h with h | h
        · exact Or.inl h
        · exact Or.inr (Or.inr h)

theorem WF_insert (k : Nat) (v : ust_note) {m : QMap} (h : WF m) : WF (insert k v m) := by
  induction m with
  | nil => simp [insert, WF]
  | cons p t ih =>
    obtain ⟨k₁, v₁⟩ := p
    have ht : WF t := by
      simp only [WF, List.map_cons, List.pairwise_cons] at h; exact h.2
    have hlt : ∀ x ∈ keys t, k₁ < x := by
      simp only [WF, List.map_cons, List.pairwise_cons] at h; exact h.1
    simp only [insert]
    split_ifs with h1 h2
    · simp only [WF, List.map_cons, List.pairwise_cons, List.mem_cons]
      refine ⟨?_, ?_, ht⟩
      · intro x hx
        rcases hx with hx | hx
        · omega
        · have := hlt x hx; omega
      · exact hlt
    · subst h2
      simp only [WF, List.map_cons, List.pairwise_cons]
      exact ⟨hlt, ht⟩
    · simp only [WF, List.map_cons, List.pairwise_cons]
      refine ⟨?_, ih ht⟩
      intro x hx
      rcases keys_insert_subset x k v t hx with hx | hx
      · omega
      · exact hlt x hx

theorem keys_remove_subset (k k' : Nat) (m : QMap) (h : k ∈ keys (remove k' m)) :
    k ∈ keys m := by
  induction m with
  | nil => simpa [remove] using h
  | cons p t ih =>
    obtain ⟨k₁, v₁⟩ := p
    simp only [remove] at h
    split_ifs at h with h1
    · simp only [keys, List.map_cons, List.mem_cons] at ih ⊢
      exact Or.inr (ih h)
    · simp only [keys, List.map_cons, List.mem_cons] at h ih ⊢
      rcases h with h | h
      · exact Or.inl h
      · exact Or.inr (ih h)

theorem WF_remove (k : Nat) {m : QMap} (h : WF m) : WF (remove k m) := by
  induction m with
  | nil => simp [remove, WF]
  | cons p t ih =>
    obtain ⟨k₁, v₁⟩ := p
    have ht : WF t := by
      simp only [WF, List.map_cons, List.pairwise_cons] at h; exact h.2
    have hlt : ∀ x ∈ keys t, k₁ < x := by
      simp only [WF, List.map_cons, List.pairwise_cons] at h; exact h.1
    simp only [remove]
    split_ifs with h1
    · exact ih ht
    · simp only [WF, List.map_cons, List.pairwise_cons]
      exact ⟨fun x hx => hlt x (keys_remove_subset x k t hx), ih ht⟩

theorem WF_modify (d0 : ust_note) (k : Nat) (f : ust_note → ust_note) {m : QMap}
    (h : WF m) : WF (modify d0 k f m) := WF_insert k _ h

theorem value?_modify (d0 : ust_note) (k k' : Nat) (f : ust_note → ust_note) (m : QMap) :
    value? k (modify d0 k' f m)
      = if k = k' then some (f ((value? k m).getD d0)) else value? k m := by
  unfold modify ref
  rw [value?_insert]
  split_ifs with h
  · subst h; rfl
  · rfl

/-- Two well-formed maps with the same value at every key are equal. -/
theorem ext {m₁ m₂ : QMap} (h₁ : WF m₁) (h₂ : WF m₂)
    (h : ∀ k, value? k m₁ = value? k m₂) : m₁ = m₂ := by
  induction m₁ generalizing m₂ with
  | nil =>
    cases m₂ with
    | nil => rfl
    | cons p t =>
      obtain ⟨k, v⟩ := p
      have := h k
      simp [value?] at this
  | cons p₁ t₁ ih =>
    obtain ⟨k₁, v₁⟩ := p₁
    cases m₂ with
    | nil =>
      have := h k₁
      simp [value?] at this
    | cons p₂ t₂ =>
      obtain ⟨k₂, v₂⟩ := p₂
      have ht₁ : WF t₁ := by
        simp only [WF, List.map_cons, List.pairwise_cons] at h₁; exact h₁.2
      have hlt₁ : ∀ x ∈ keys t₁, k₁ < x := by
        simp only [WF, List.map_cons, List.pairwise_cons] at h₁; exact h₁.1
      have ht₂ : WF t₂ := by
        simp only [WF, List.map_cons, List.pairwise_cons] at h₂; exact h₂.2
      have hlt₂ : ∀ x ∈ keys t₂, k₂ < x := by
        simp only [WF, List.map_cons, List.pairwise_cons] at h₂; exact h₂.1
      have hk : k₁ = k₂ := by
        by_contra hne
        have e1 := h k₁
        have e2 := h k₂
        simp only [value?, if_true, if_neg hne, if_neg (Ne.symm hne)] at e1 e2
        have m1 := hlt₂ k₁ (mem_keys_of_value?_eq_some e1.symm)
        have m2 := hlt₁ k₂ (mem_keys_of_value?_eq_some e2)
        omega
      subst hk
      have hv : v₁ = v₂ := by
        have e1 := h k₁
        simpa [value?] using e1
      subst hv
      have htl : t₁ = t₂ := by
        apply ih ht₁ ht₂
        intro k
        by_cases hk : k = k₁
        · subst hk
          rw [value?_eq_none_of_not_mem_keys, value?_eq_none_of_not_mem_keys]
          · intro hm; have := hlt₂ k hm; omega
          · intro hm; have := hlt₁ k hm; omega
        · have := h k
          simpa [value?, hk] using this
      rw [htl]

theorem value?_foldl_modify {ρ : Type} (d0 : ust_note) (idf : ρ → Nat)
    (g : ρ → ust_note → ust_note) (k : Nat) (cs : List ρ) (S : QMap) :
    value? k (cs.foldl (fun m c => modify d0 (idf c) (g c) m) S)
      = cs.foldl (fun o c => if k = idf c then some (g c (o.getD d0)) else o)
          (value? k S) := by
  induction cs generalizing S with
  | nil => rfl
  | cons c cs ih =>
    simp only [List.foldl_cons]
    rw [ih, value?_modify]

theorem WF_foldl_modify {ρ : Type} (d0 : ust_note) (idf : ρ → Nat)
    (g : ρ → ust_note → ust_note) (cs : List ρ) {S : QMap} (h : WF S) :
    WF (cs.foldl (fun m c => modify d0 (idf c) (g c) m) S) := by
  induction cs generalizing S with
  | nil => exact h
  | cons c cs ih =>
    simp only [List.foldl_cons]
    exact ih (WF_modify d0 _ _ h)

theorem value?_foldl_insert {ρ : Type} (idf : ρ → Nat) (mk : ρ → ust_note) (k : Nat)
    (cs : List ρ) (S : QMap) :
    value? k (cs.foldl (fun m c => insert (idf c) (mk c) m) S)
      = cs.foldl (fun o c => if k = idf c then some (mk c) else o) (value? k S) := by
  induction cs generalizing S with
  | nil => rfl
  | cons c cs ih =>
    simp only [List.foldl_cons]
    rw [ih, value?_insert]

theorem WF_foldl_insert {ρ : Type} (idf : ρ → Nat) (mk : ρ → ust_note)
    (cs : List ρ) {S : QMap} (h : WF S) :
    WF (cs.foldl (fun m c => insert (idf c) (mk c) m) S) := by
  induction cs generalizing S with
  | nil => exact h
  | cons c cs ih =>
    simp only [List.foldl_cons]
    exact ih (WF_insert _ _ h)

theorem value?_foldl_remove {ρ : Type} (idf : ρ → Nat) (k : Nat)
    (cs : List ρ) (S : QMap) :
    value? k (cs.foldl (fun m c => remove (idf c) m) S)
      = cs.foldl (fun o c => if k = idf c then none else o) (value? k S) := by
  induction cs generalizing S with
  | nil => rfl
  | cons c cs ih =>
    simp only [List.foldl_cons]
    rw [ih, value?_remove]

theorem WF_foldl_remove {ρ : Type} (idf : ρ → Nat)
    (cs : List ρ) {S : QMap} (h : WF S) :
    WF (cs.foldl (fun m c => remove (idf c) m) S) := by
  induction cs generalizing S with
  | nil => exact h
  | cons c cs ih =>
    simp only [List.foldl_cons]
    exact ih (WF_remove _ h)

end QMap

/-! ## Folds over a changeset, seen at one key -/

/-- A fold that only acts at other keys leaves the value as it is. -/
theorem foldl_skip {ρ β : Type} (idf : ρ → Nat) (f : ρ → β → β) (k : Nat) (cs : List ρ)
    (h : ∀ c ∈ cs, k ≠ idf c) (o : β) :
    cs.foldl (fun o c => if k = idf c then f c o else o) o = o := by
  induction cs generalizing o with
  | nil => rfl
  | cons c cs ih =>
    simp only [List.foldl_cons]
    rw [if_neg (h c (List.mem_cons_self _ _))]
    exact ih (fun c hc => h c (List.mem_cons_of_mem _ hc)) o

/-- A fold of note updates on a value that is present is the fold on the note. -/
theorem foldl_some {ρ : Type} (d0 : ust_note) (idf : ρ → Nat)
    (g : ρ → ust_note → ust_note) (k : Nat) (cs : List ρ) (n : ust_note) :
    cs.foldl (fun o c => if k = idf c then some (g c (o.getD d0)) else o) (some n)
      = some (cs.foldl (fun n c => if k = idf c then g c n else n) n) := by
  induction cs generalizing n with
  | nil => rfl
  | cons c cs ih =>
    simp only [List.foldl_cons]
    by_cases h : k = idf c
    · simp only [if_pos h, Option.getD_some]; exact ih _
    · simp only [if_neg h]; exact ih _

/-- A fold of updates that do not read the old value: the result is the old
value when no record has the key, else what one of the records with the key
writes. -/
theorem foldl_const {ρ β : Type} (idf : ρ → Nat) (f : ρ → β) (k : Nat) (cs : List ρ)
    (o : β) :
    (cs.foldl (fun o c => if k = idf c then f c else o) o = o ∧ ∀ c ∈ cs, k ≠ idf c)
      ∨ ∃ c ∈ cs, k = idf c ∧ cs.foldl (fun o c => if k = idf c then f c else o) o = f c := by
  induction cs generalizing o with
  | nil => exact Or.inl ⟨rfl, fun c hc => by cases hc⟩
  | cons c cs ih =>
    simp only [List.foldl_cons]
    by_cases h : k = idf c
    · simp only [if_pos h]
      rcases ih (f c) with ⟨he, hn⟩ | ⟨c', hc', hk', he⟩
      · exact Or.inr ⟨c, List.mem_cons_self _ _, h, he⟩
      · exact Or.inr ⟨c', List.mem_cons_of_mem _ hc', hk', he⟩
    · simp only [if_neg h]
      rcases ih o with ⟨he, hn⟩ | ⟨c', hc', hk', he⟩
      · refine Or.inl ⟨he, ?_⟩
        intro c' hc'
        rcases List.mem_cons.mp hc' with hc' | hc'
        · subst hc'; exact h
        · exact hn c' hc'
      · exact Or.inr ⟨c', List.mem_cons_of_mem _ hc', hk', he⟩

/-- Updates `g₁` followed by updates `g₂` that overwrite what `g₁` touched:
when `g₂` writes the values `n` already has, the two folds give back `n`.
`R n x` says that `x` is `n` outside the overwritten fields. -/
theorem overwrite_roundtrip {ρ : Type} (idf : ρ → Nat) (g₁ g₂ : ρ → ust_note → ust_note)
    (R : ust_note → ust_note → Prop) (hR : ∀ n, R n n)
    (h₁ : ∀ c n x, R n x → R n (g₁ c x))
    (h₂ : ∀ c n x, R n x → g₂ c n = n → g₂ c x = n)
    (k : Nat) (cs : List ρ) (n : ust_note) (h : ∀ c ∈ cs, k = idf c → g₂ c n = n) :
    cs.foldl (fun n c => if k = idf c then g₂ c n else n)
      (cs.foldl (fun n c => if k = idf c then g₁ c n else n) n) = n := by
  have keep : ∀ (l : List ρ) (x : ust_note), R n x →
      R n (l.foldl (fun n c => if k = idf c then g₁ c n else n) x) := by
    intro l
    induction l with
    | nil => intro x hx; exact hx
    | cons c l ih =>
      intro x hx
      simp only [List.foldl_cons]
      by_cases hk : k = idf c
      · simp only [if_pos hk]; exact ih _ (h₁ c n x hx)
      · simp only [if_neg hk]; exact ih _ hx
  have back : ∀ (l : List ρ), (∀ c ∈ l, k = idf c → g₂ c n = n) → ∀ x : ust_note, R n x →
      l.foldl (fun n c => if k = idf c then g₂ c n else n) x = n
        ∨ (l.foldl (fun n c => if k = idf c then g₂ c n else n) x = x
            ∧ ∀ c ∈ l, k ≠ idf c) := by
    intro l
    induction l with
    | nil => intro _ x _; exact Or.inr ⟨rfl, fun c hc => by cases hc⟩
    | cons c l ih =>
      intro hl x hx
      have hl' : ∀ c ∈ l, k = idf c → g₂ c n = n :=
        fun c' hc' => hl c' (List.mem_cons_of_mem _ hc')
      simp only [List.foldl_cons]
      by_cases hk : k = idf c
      · simp only [if_pos hk]
        rw [h₂ c n x hx (hl c (List.mem_cons_self _ _) hk)]
        rcases ih hl' n (hR n) with he | ⟨he, _⟩
        · exact Or.inl he
        · exact Or.inl he
      · simp only [if_neg hk]
        rcases ih hl' x hx with he | ⟨he, hn⟩
        · exact Or.inl he
        · refine Or.inr ⟨he, ?_⟩
          intro c' hc'
          rcases List.mem_cons.mp hc' with hc' | hc'
          · subst hc'; exact hk
          · exact hn c' hc'
  rcases back cs h _ (keep cs n (hR n)) with he | ⟨he, hn⟩
  · exact he
  · rw [he]
    exact foldl_skip idf g₁ k cs hn n

/-- The store-level round trip of two passes of `QMap.modify` over a
changeset, from the round trip on one note. -/
theorem modify_roundtrip {ρ : Type} (d0 : ust_note) (idf : ρ → Nat)
    (g₁ g₂ : ρ → ust_note → ust_note) (P : ρ → ust_note → Prop) (cs : List ρ)
    (hnote : ∀ (k : Nat) (n : ust_note), (∀ c ∈ cs, k = idf c → P c n) →
      cs.foldl (fun n c => if k = idf c then g₂ c n else n)
        (cs.foldl (fun n c => if k = idf c then g₁ c n else n) n) = n)
    {S : QMap} (hS : QMap.WF S)
    (h : ∀ c ∈ cs, ∃ n, QMap.value? (idf c) S = some n ∧ P c n) :
    cs.foldl (fun m c => QMap.modify d0 (idf c) (g₂ c) m)
      (cs.foldl (fun m c => QMap.modify d0 (idf c) (g₁ c) m) S) = S := by
  apply QMap.ext
  · exact QMap.WF_foldl_modify d0 idf g₂ cs (QMap.WF_foldl_modify d0 idf g₁ cs hS)
  · exact hS
  · intro k
    rw [QMap.value?_foldl_modify, QMap.value?_foldl_modify]
    by_cases hm : ∃ c ∈ cs, k = idf c
    · obtain ⟨c, hc, hk⟩ := hm
      obtain ⟨n, hn, _⟩ := h c hc
      rw [← hk] at hn
      rw [hn, foldl_some, foldl_some]
      congr 1
      apply hnote k n
      intro c' hc' hk'
      obtain ⟨n', hn', hP⟩ := h c' hc'
      rw [← hk', hn] at hn'
      cases hn'
      exact hP
    · have hn : ∀ c ∈ cs, k ≠ idf c := fun c hc hk => hm ⟨c, hc, hk⟩
      rw [foldl_skip idf (fun c o => some (g₁ c (o.getD d0))) k cs hn,
        foldl_skip idf (fun c o => some (g₂ c (o.getD d0))) k cs hn]

/-! ## The round trip of each applier -/

theorem resized_roundtrip (d0 : ust_note) (cs : List noteResizeData) (fwd : Bool)
    {S : QMap} (hS : QMap.WF S)
    (h : ∀ c ∈ cs, ∃ n, QMap.value? c.id S = some n ∧ resizeNote (!fwd) c n = n) :
    applyEvent_NoteResized d0 cs (!fwd) (applyEvent_NoteResized d0 cs fwd S) = S := by
  unfold applyEvent_NoteResized
  refine modify_roundtrip d0 noteResizeData.id (resizeNote fwd) (resizeNote (!fwd))
    (fun c n => resizeNote (!fwd) c n = n) cs ?_ hS h
  intro k n hn
  refine overwrite_roundtrip noteResizeData.id (resizeNote fwd) (resizeNote (!fwd))
    (fun n x => x.id = n.id ∧ x.lyric = n.lyric ∧ x.keyNumber = n.keyNumber)
    (fun _ => ⟨rfl, rfl, rfl⟩) ?_ ?_ k cs n hn
  · intro c n x hx
    unfold resizeNote
    split_ifs <;> exact hx
  · intro c n x hx hc
    obtain ⟨i, l, o, len, key⟩ := n
    obtain ⟨i', l', o', len', key'⟩ := x
    obtain ⟨h1, h2, h3⟩ := hx
    simp only at h1 h2 h3
    subst h1 h2 h3
    unfold resizeNote at hc ⊢
    split_ifs at hc ⊢ <;> simpa using hc

theorem retext_roundtrip (d0 : ust_note) (cs : List noteTextData) (fwd : Bool)
    {S : QMap} (hS : QMap.WF S)
    (h : ∀ c ∈ cs, ∃ n, QMap.value? c.id S = some n ∧ retextNote (!fwd) c n = n) :
    applyEvent_NoteLyrics d0 cs (!fwd) (applyEvent_NoteLyrics d0 cs fwd S) = S := by
  unfold applyEvent_NoteLyrics
  refine modify_roundtrip d0 noteTextData.id (retextNote fwd) (retextNote (!fwd))
    (fun c n => retextNote (!fwd) c n = n) cs ?_ hS h
  intro k n hn
  refine overwrite_roundtrip noteTextData.id (retextNote fwd) (retextNote (!fwd))
    (fun n x => x.id = n.id ∧ x.pulseOffset = n.pulseOffset ∧ x.pulseLength = n.pulseLength
      ∧ x.keyNumber = n.keyNumber)
    (fun _ => ⟨rfl, rfl, rfl, rfl⟩) ?_ ?_ k cs n hn
  · intro c n x hx
    unfold retextNote
    split_ifs <;> exact hx
  · intro c n x hx hc
    obtain ⟨i, l, o, len, key⟩ := n
    obtain ⟨i', l', o', len', key'⟩ := x
    obtain ⟨h1, h2, h3, h4⟩ := hx
    simp only at h1 h2 h3 h4
    subst h1 h2 h3 h4
    unfold retextNote at hc ⊢
    split_ifs at hc ⊢ <;> simpa using hc

/-- The offset a pass of `moveNote` adds at key `k`. -/
theorem moved_fold (fwd : Bool) (k : Nat) (cs : List noteMoveData) (x : ust_note) :
    ∃ key, cs.foldl (fun n c => if k = c.id then moveNote fwd c n else n) x
      = { x with
          pulseOffset := x.pulseOffset
            + ((cs.filter (fun c => decide (k = c.id))).map
                (fun c => if fwd then c.pulseOffDelta else - c.pulseOffDelta)).sum,
          keyNumber := key }
      ∧ (key = x.keyNumber ∧ (∀ c ∈ cs, k ≠ c.id)
          ∨ ∃ c ∈ cs, k = c.id ∧ key = (moveNote fwd c x).keyNumber) := by
  induction cs generalizing x with
  | nil => exact ⟨x.keyNumber, by simp, Or.inl ⟨rfl, fun c hc => by cases hc⟩⟩
  | cons c cs ih =>
    simp only [List.foldl_cons]
    by_cases hk : k = c.id
    · obtain ⟨key, he, hkey⟩ := ih (moveNote fwd c x)
      refine ⟨key, ?_, ?_⟩
      · rw [if_pos hk, he]
        cases fwd <;> simp [moveNote, List.filter_cons, hk] <;> ring
      · rcases hkey with ⟨h1, _⟩ | ⟨c', hc', hk', h1⟩
        · exact Or.inr ⟨c, List.mem_cons_self _ _, hk, h1⟩
        · refine Or.inr ⟨c', List.mem_cons_of_mem _ hc', hk', ?_⟩
          rw [h1]; cases fwd <;> rfl
    · obtain ⟨key, he, hkey⟩ := ih x
      refine ⟨key, ?_, ?_⟩
      · rw [if_neg hk, he]
        simp [List.filter_cons, hk]
      · rcases hkey with ⟨h1, hn⟩ | ⟨c', hc', hk', h1⟩
        · refine Or.inl ⟨h1, ?_⟩
          intro c' hc'
          rcases List.mem_cons.mp hc' with hc' | hc'
          · subst hc'; exact hk
          · exact hn c' hc'
        · exact Or.inr ⟨c', List.mem_cons_of_mem _ hc', hk', h1⟩

theorem moved_roundtrip (d0 : ust_note) (cs : List noteMoveData) (fwd : Bool)
    {S : QMap} (hS : QMap.WF S)
    (h : ∀ c ∈ cs, ∃ n, QMap.value? c.id S = some n
      ∧ (moveNote (!fwd) c n).keyNumber = n.keyNumber) :
    applyEvent_NoteMoved d0 cs (!fwd) (applyEvent_NoteMoved d0 cs fwd S) = S := by
  unfold applyEvent_NoteMoved
  refine modify_roundtrip d0 noteMoveData.id (moveNote fwd) (moveNote (!fwd))
    (fun c n => (moveNote (!fwd) c n).keyNumber = n.keyNumber) cs ?_ hS h
  intro k n hn
  obtain ⟨key₁, he₁, _⟩ := moved_fold fwd k cs n
  rw [he₁]
  obtain ⟨key₂, he₂, hkey₂⟩ := moved_fold (!fwd) k cs
    { n with
      pulseOffset := n.pulseOffset
        + ((cs.filter (fun c => decide (k = c.id))).map
            (fun c => if fwd then c.pulseOffDelta else - c.pulseOffDelta)).sum,
      keyNumber := key₁ }
  rw [he₂]
  have hsum : ((cs.filter (fun c => decide (k = c.id))).map
        (fun c => if (!fwd) = true then c.pulseOffDelta else - c.pulseOffDelta)).sum
      = - ((cs.filter (fun c => decide (k = c.id))).map
        (fun c => if fwd = true then c.pulseOffDelta else - c.pulseOffDelta)).sum := by
    induction (cs.filter (fun c => decide (k = c.id))) with
    | nil => simp
    | cons c l ih =>
      simp only [List.map_cons, List.sum_cons, ih]
      cases fwd <;> simp <;> ring
  have hkey : key₂ = n.keyNumber := by
    rcases hkey₂ with ⟨h1, hno⟩ | ⟨c, hc, hk, h1⟩
    · rcases ‹key₁ = n.keyNumber ∧ _ ∨ _› with ⟨h2, _⟩ | ⟨c, hc, hk, _⟩
      · rw [h1]; exact h2
      · exact absurd hk (hno c hc)
    · rw [h1, ← hn c hc hk]
      cases fwd <;> rfl
  obtain ⟨i, l, o, len, key⟩ := n
  simp only [hsum, hkey]
  simp

theorem reallyForward_not (fwd del : Bool) :
    reallyForward (!fwd) del = !reallyForward fwd del := by
  cases fwd <;> cases del <;> rfl

theorem added_roundtrip (cs : List noteAddData) (fwd del : Bool) {S : QMap}
    (hS : QMap.WF S)
    (h : if reallyForward fwd del then ∀ c ∈ cs, QMap.value? c.id S = none
         else ∀ c ∈ cs, QMap.value? c.id S = some (noteOfAdd c)) :
    applyEvent_NoteAdded cs (!fwd) del (applyEvent_NoteAdded cs fwd del S) = S := by
  unfold applyEvent_NoteAdded
  rw [reallyForward_not]
  cases hf : reallyForward fwd del
  · rw [hf] at h
    have h' : ∀ c ∈ cs, QMap.value? c.id S = some (noteOfAdd c) := by simpa using h
    simp only [Bool.not_false, if_true, Bool.false_eq_true, if_false]
    apply QMap.ext
    · exact QMap.WF_foldl_insert _ _ cs (QMap.WF_foldl_remove _ cs hS)
    · exact hS
    · intro k
      rw [QMap.value?_foldl_insert, QMap.value?_foldl_remove]
      rcases foldl_const noteAddData.id (fun c => some (noteOfAdd c)) k cs
        (cs.foldl (fun o c => if k = c.id then none else o)
          (QMap.value? k S)) with ⟨he, hn⟩ | ⟨c, hc, hk, he⟩
      · rw [he]
        exact foldl_skip noteAddData.id (fun _ _ => (none : Option ust_note)) k cs hn _
      · rw [he, hk, h' c hc]
  · rw [hf] at h
    have h' : ∀ c ∈ cs, QMap.value? c.id S = none := by simpa using h
    simp only [Bool.not_true, if_true, Bool.false_eq_true, if_false]
    apply QMap.ext
    · exact QMap.WF_foldl_remove _ cs (QMap.WF_foldl_insert _ _ cs hS)
    · exact hS
    · intro k
      rw [QMap.value?_foldl_remove, QMap.value?_foldl_insert]
      rcases foldl_const noteAddData.id (fun _ => (none : Option ust_note)) k cs
        (cs.foldl (fun o c => if k = c.id then some (noteOfAdd c) else o)
          (QMap.value? k S)) with ⟨he, hn⟩ | ⟨c, hc, hk, he⟩
      · rw [he]
        exact foldl_skip noteAddData.id (fun c _ => some (noteOfAdd c)) k cs hn _
      · rw [he, hk, h' c hc]

/-- Applying an event and then the same event with its direction reversed
gives back the note store, when the event agrees with the store. -/
theorem processEvent_roundtrip (d0 : ust_note) (s : qtauSession) (e : qtauEvent)
    (hS : QMap.WF s.noteMap) (h : agrees s.noteMap e = true) :
    (processEvent d0 (some (reversed e)) (processEvent d0 (some e) s).2).2.noteMap
      = s.noteMap := by
  obtain ⟨data, fwd, sp⟩ := e
  cases data with
  | add cs del =>
    simp only [processEvent, reversed]
    apply added_roundtrip cs fwd del hS
    simp only [agrees] at h
    by_cases hf : reallyForward fwd del = true
    · simp only [hf, if_true] at h ⊢
      intro c hc
      have := List.all_eq_true.mp h c hc
      simpa [QMap.contains] using this
    · simp only [hf] at h ⊢
      simp only [Bool.false_eq_true, if_false] at h ⊢
      intro c hc
      have := List.all_eq_true.mp h c hc
      simpa using this
  | move cs =>
    simp only [processEvent, reversed]
    apply moved_roundtrip d0 cs fwd hS
    simp only [agrees] at h
    intro c hc
    have hc' := List.all_eq_true.mp h c hc
    cases hv : QMap.value? c.id s.noteMap with
    | none => simp [hv] at hc'
    | some n =>
      refine ⟨n, rfl, ?_⟩
      simp only [hv] at hc'
      cases fwd <;> simp [moveNote] at hc' ⊢ <;> exact hc'.symm
  | resize cs =>
    simp only [processEvent, reversed]
    apply resized_roundtrip d0 cs fwd hS
    simp only [agrees] at h
    intro c hc
    have hc' := List.all_eq_true.mp h c hc
    cases hv : QMap.value? c.id s.noteMap with
    | none => simp [hv] at hc'
    | some n =>
      refine ⟨n, rfl, ?_⟩
      simp only [hv] at hc'
      obtain ⟨i, l, o, len, key⟩ := n
      cases fwd <;> simp [resizeNote] at hc' ⊢ <;> exact ⟨hc'.1.symm, hc'.2.symm⟩
  | text cs =>
    simp only [processEvent, reversed]
    apply retext_roundtrip d0 cs fwd hS
    simp only [agrees] at h
    intro c hc
    have hc' := List.all_eq_true.mp h c hc
    cases hv : QMap.value? c.id s.noteMap with
    | none => simp [hv] at hc'
    | some n =>
      refine ⟨n, rfl, ?_⟩
      simp only [hv] at hc'
      obtain ⟨i, l, o, len, key⟩ := n
      cases fwd <;> simp [retextNote] at hc' ⊢ <;> exact hc'.symm
  | effect => simp [processEvent, reversed, applyEvent_NoteEffects]
  | other t => simp [processEvent, reversed]

/-! ## What the dispatcher leaves alone -/

theorem processEvent_events (d0 : ust_note) (e : Option qtauEvent) (s : qtauSession) :
    (processEvent d0 e s).2.events = s.events
      ∧ (processEvent d0 e s).2.futureEvents = s.futureEvents
      ∧ (processEvent d0 e s).2.hadSavePoint = s.hadSavePoint
      ∧ (processEvent d0 e s).2.isModified = s.isModified := by
  cases e with
  | none => simp [processEvent]
  | some ev =>
    obtain ⟨data, fwd, sp⟩ := ev
    cases data <;> simp [processEvent]

theorem processEvent_WF (d0 : ust_note) (e : Option qtauEvent) (s : qtauSession)
    (hS : QMap.WF s.noteMap) : QMap.WF (processEvent d0 e s).2.noteMap := by
  cases e with
  | none => simpa [processEvent] using hS
  | some ev =>
    obtain ⟨data, fwd, sp⟩ := ev
    cases data with
    | add cs del =>
      simp only [processEvent, applyEvent_NoteAdded]
      split_ifs
      · exact QMap.WF_foldl_insert _ _ cs hS
      · exact QMap.WF_foldl_remove _ cs hS
    | move cs => exact QMap.WF_foldl_modify d0 _ _ cs hS
    | resize cs => exact QMap.WF_foldl_modify d0 _ _ cs hS
    | text cs => exact QMap.WF_foldl_modify d0 _ _ cs hS
    | effect => simpa [processEvent, applyEvent_NoteEffects] using hS
    | other t => simpa [processEvent] using hS

theorem setPlaybackState_fields (st : EAudioPlayback) (s : qtauSession) :
    (setPlaybackState st s).events = s.events
      ∧ (setPlaybackState st s).futureEvents = s.futureEvents
      ∧ (setPlaybackState st s).noteMap = s.noteMap
      ∧ (setPlaybackState st s).hadSavePoint = s.hadSavePoint
      ∧ (setPlaybackState st s).isModified = s.isModified := by
  unfold setPlaybackState
  split_ifs <;> simp

theorem stackChanged_fields (s : qtauSession) :
    (stackChanged s).events = s.events
      ∧ (stackChanged s).futureEvents = s.futureEvents
      ∧ (stackChanged s).noteMap = s.noteMap
      ∧ (stackChanged s).hadSavePoint = s.hadSavePoint := by
  unfold stackChanged
  dsimp only
  split_ifs <;> simp [setPlaybackState_fields]

theorem stackChanged_isModified (s : qtauSession) :
    (stackChanged s).isModified = derivedModified s.events s.hadSavePoint := by
  unfold stackChanged derivedModified
  dsimp only
  split_ifs <;> simp [setPlaybackState_fields]

/-- A pass of `QMap.modify` leaves every id of the changeset in the store. -/
theorem contains_foldl_modify {ρ : Type} (d0 : ust_note) (idf : ρ → Nat)
    (g : ρ → ust_note → ust_note) (cs : List ρ) (S : QMap) (c : ρ) (hc : c ∈ cs) :
    QMap.contains (idf c) (cs.foldl (fun m c => QMap.modify d0 (idf c) (g c) m) S) = true := by
  unfold QMap.contains
  rw [QMap.value?_foldl_modify]
  have key : ∀ (l : List ρ) (o : Option ust_note), (o.isSome = true ∨ ∃ c' ∈ l, idf c = idf c') →
      (l.foldl (fun o c' => if idf c = idf c' then some (g c' (o.getD d0)) else o) o).isSome
        = true := by
    intro l
    induction l with
    | nil =>
      intro o h
      rcases h with h | ⟨c', hc', _⟩
      · exact h
      · cases hc'
    | cons a l ih =>
      intro o h
      simp only [List.foldl_cons]
      apply ih
      by_cases ha : idf c = idf a
      · left; simp [ha]
      · rcases h with h | ⟨c', hc', hk⟩
        · left; simpa [ha] using h
        · rcases List.mem_cons.mp hc' with hc' | hc'
          · subst hc'; exact absurd hk ha
          · right; exact ⟨c', hc', hk⟩
  exact key cs _ (Or.inr ⟨c, hc, rfl⟩)

/-! ## Commit and undo, seen on the store and the past stack -/

theorem processEvent_noteMap_congr (d0 : ust_note) (e : Option qtauEvent)
    (s t : qtauSession) (h : s.noteMap = t.noteMap) :
    (processEvent d0 e s).2.noteMap = (processEvent d0 e t).2.noteMap := by
  cases e with
  | none => simpa [processEvent] using h
  | some ev =>
    obtain ⟨data, fwd, sp⟩ := ev
    cases data <;> simp [processEvent, h]

theorem onUIEvent_of_success (d0 : ust_note) (e : qtauEvent) (s : qtauSession)
    (h : (processEvent d0 (some e) s).1 = true) :
    (onUIEvent d0 (some e) s).events = e :: s.events
      ∧ (onUIEvent d0 (some e) s).noteMap = (processEvent d0 (some e) s).2.noteMap := by
  simp only [onUIEvent, h, if_true, storeEvent]
  obtain ⟨h1, _, h3, _⟩ := stackChanged_fields
    { (processEvent d0 (some e) s).2 with
      events := e :: (processEvent d0 (some e) s).2.events, futureEvents := [] }
  rw [h1, h3]
  simp [(processEvent_events d0 (some e) s).1]

theorem undo_of_cons (d0 : ust_note) (s : qtauSession) (e : qtauEvent)
    (rest : List qtauEvent) (h : s.events = e :: rest) :
    (undo d0 s).events = rest
      ∧ (undo d0 s).futureEvents = e :: s.futureEvents
      ∧ (undo d0 s).noteMap = (processEvent d0 (some (reversed e)) s).2.noteMap
      ∧ (undo d0 s).hadSavePoint = s.hadSavePoint
      ∧ (undo d0 s).isModified = derivedModified rest s.hadSavePoint := by
  have hu : undo d0 s = stackChanged
      { (processEvent d0 (some (reversed e)) { s with events := rest }).2 with
        futureEvents := e :: (processEvent d0 (some (reversed e))
          { s with events := rest }).2.futureEvents } := by
    cases s
    simp only at h
    subst h
    rfl
  rw [hu]
  obtain ⟨h1, h2, h3, h4⟩ := stackChanged_fields
    { (processEvent d0 (some (reversed e)) { s with events := rest }).2 with
      futureEvents := e :: (processEvent d0 (some (reversed e))
        { s with events := rest }).2.futureEvents }
  obtain ⟨p1, p2, p3, _⟩ := processEvent_events d0 (some (reversed e)) { s with events := rest }
  rw [h1, h2, h3, h4, stackChanged_isModified]
  simp only [p1, p2, p3]
  refine ⟨trivial, trivial, ?_, trivial, trivial⟩
  exact processEvent_noteMap_congr d0 _ _ _ rfl

theorem undo_of_nil (d0 : ust_note) (s : qtauSession) (h : s.events = []) :
    undo d0 s = s := by
  unfold undo
  rw [h]

/-- After the commits of `es` and as many undos, the store and the past
stack are what they were, when each event agreed with the store it met. -/
theorem undo_all_commits (d0 : ust_note) (es : List qtauEvent) (s : qtauSession)
    (hS : QMap.WF s.noteMap) (h : commitsAgree d0 s es = true) :
    ((undo d0)^[es.length] (submitAll d0 es s)).noteMap = s.noteMap
      ∧ ((undo d0)^[es.length] (submitAll d0 es s)).events = s.events := by
  induction es generalizing s with
  | nil => exact ⟨rfl, rfl⟩
  | cons e es ih =>
    simp only [commitsAgree, Bool.and_eq_true] at h
    obtain ⟨⟨hok, hag⟩, hrest⟩ := h
    obtain ⟨hev, hmap⟩ := onUIEvent_of_success d0 e s hok
    have hS1 : QMap.WF (onUIEvent d0 (some e) s).noteMap := by
      rw [hmap]; exact processEvent_WF d0 _ s hS
    obtain ⟨ihmap, ihev⟩ := ih (onUIEvent d0 (some e) s) hS1 hrest
    have hsub : submitAll d0 (e :: es) s = submitAll d0 es (onUIEvent d0 (some e) s) := rfl
    rw [hsub, List.length_cons, Function.iterate_succ_apply']
    rw [hev] at ihev
    obtain ⟨u1, _, u3, _⟩ := undo_of_cons d0 _ e s.events ihev
    refine ⟨?_, u1⟩
    rw [u3, processEvent_noteMap_congr d0 _ _ (processEvent d0 (some e) s).2 (ihmap.trans hmap)]
    exact processEvent_roundtrip d0 s e hS hag

/-! ## Save point, undo and redo, seen on the flags -/

theorem onUIEvent_isModified (d0 : ust_note) (e : qtauEvent) (s : qtauSession)
    (h : (processEvent d0 (some e) s).1 = true) :
    (onUIEvent d0 (some e) s).isModified = !e.savePoint := by
  simp only [onUIEvent, h, if_true, storeEvent]
  rw [stackChanged_isModified]
  rfl

theorem redo_of_cons (d0 : ust_note) (s : qtauSession) (e : qtauEvent)
    (rest : List qtauEvent) (h : s.futureEvents = e :: rest) :
    (redo d0 s).events = e :: s.events
      ∧ (redo d0 s).futureEvents = rest
      ∧ (redo d0 s).hadSavePoint = s.hadSavePoint
      ∧ (redo d0 s).isModified = derivedModified (e :: s.events) s.hadSavePoint := by
  have hr : redo d0 s = stackChanged
      { (processEvent d0 (some e) { s with futureEvents := rest }).2 with
        events := e :: (processEvent d0 (some e) { s with futureEvents := rest }).2.events } := by
    cases s
    simp only at h
    subst h
    rfl
  rw [hr]
  obtain ⟨h1, h2, _, h4⟩ := stackChanged_fields
    { (processEvent d0 (some e) { s with futureEvents := rest }).2 with
      events := e :: (processEvent d0 (some e) { s with futureEvents := rest }).2.events }
  obtain ⟨p1, p2, p3, _⟩ := processEvent_events d0 (some e) { s with futureEvents := rest }
  rw [h1, h2, h4, stackChanged_isModified]
  simp only [p1, p2, p3]
  exact ⟨trivial, trivial, trivial, trivial⟩

theorem setSaved_of_cons (s : qtauSession) (top : qtauEvent) (rest : List qtauEvent)
    (h : s.events = top :: rest) :
    (setSaved s).events = setSavePoint true top :: rest.map (setSavePoint false)
      ∧ (setSaved s).futureEvents = s.futureEvents.map (setSavePoint false)
      ∧ (setSaved s).hadSavePoint = true
      ∧ (setSaved s).isModified = false
      ∧ (setSaved s).noteMap = s.noteMap := by
  obtain ⟨ev, fut, nm, data, dn, fp, im, hsp, ps, vw, mw, sg, lg⟩ := s
  simp only at h
  subst h
  cases fut <;> cases im <;>
    simp [setSaved, canUndo, setModified, setTopSavePoint, setSavePoint]

/-- Once a save has occurred and no event of the past is the save point,
every further undo leaves `modified` set. -/
theorem undo_iterate_modified (d0 : ust_note) (j : Nat) (s : qtauSession)
    (h1 : s.hadSavePoint = true) (h2 : ∀ e ∈ s.events, e.savePoint = false)
    (h3 : s.isModified = true) :
    ((undo d0)^[j] s).isModified = true := by
  induction j generalizing s with
  | zero => exact h3
  | succ j ih =>
    rw [Function.iterate_succ_apply]
    cases hev : s.events with
    | nil => rw [undo_of_nil d0 s hev]; exact ih s h1 h2 h3
    | cons e rest =>
      obtain ⟨u1, _, _, u4, u5⟩ := undo_of_cons d0 s e rest hev
      have hrest : ∀ x ∈ rest, x.savePoint = false := by
        intro x hx
        apply h2
        rw [hev]
        exact List.mem_cons_of_mem _ hx
      apply ih
      · rw [u4]; exact h1
      · rw [u1]; exact hrest
      · rw [u5, h1]
        cases rest with
        | nil => rfl
        | cons t r => simp [derivedModified, hrest t (List.mem_cons_self _ _)]

/-- After `j` undos and `j` redos both stacks are what they were, and
`modified` is the value the past stack determines. -/
theorem redo_undo_iterate (d0 : ust_note) (j : Nat) (s : qtauSession)
    (hj : j ≤ s.events.length) :
    ((redo d0)^[j] ((undo d0)^[j] s)).events = s.events
      ∧ ((redo d0)^[j] ((undo d0)^[j] s)).futureEvents = s.futureEvents
      ∧ ((redo d0)^[j] ((undo d0)^[j] s)).hadSavePoint = s.hadSavePoint
      ∧ (1 ≤ j → ((redo d0)^[j] ((undo d0)^[j] s)).isModified
          = derivedModified s.events s.hadSavePoint) := by
  induction j generalizing s with
  | zero => exact ⟨rfl, rfl, rfl, fun h => absurd h (by decide)⟩
  | succ j ih =>
    cases hev : s.events with
    | nil => rw [hev] at hj; simp at hj
    | cons e rest =>
      obtain ⟨u1, u2, _, u4, _⟩ := undo_of_cons d0 s e rest hev
      have hj' : j ≤ (undo d0 s).events.length := by
        rw [u1]; rw [hev] at hj; simpa using hj
      obtain ⟨i1, i2, i3, _⟩ := ih (undo d0 s) hj'
      have e1 : (undo d0)^[j + 1] s = (undo d0)^[j] (undo d0 s) :=
        Function.iterate_succ_apply _ _ _
      have e2 : ∀ x, (redo d0)^[j + 1] x = redo d0 ((redo d0)^[j] x) :=
        fun x => Function.iterate_succ_apply' _ _ _
      rw [e1, e2]
      obtain ⟨r1, r2, r3, r4⟩ := redo_of_cons d0 _ e s.futureEvents (i2.trans u2)
      rw [r1, r2, r3, r4, i1, i3, u1, u4]
      exact ⟨rfl, rfl, rfl, fun _ => rfl⟩

/-! ## The last record with a key, and the sort -/

/-- A fold of updates that do not read the old value ends with what the last
record with the key writes. -/
theorem foldl_last {ρ β : Type} (idf : ρ → Nat) (f : ρ → β) (k : Nat) (cs : List ρ) (o : β) :
    cs.foldl (fun o c => if k = idf c then f c else o) o
      = match (cs.filter (fun c => decide (idf c = k))).getLast? with
        | some c => f c
        | none => o := by
  induction cs using List.reverseRecOn with
  | nil => rfl
  | append_singleton l a ih =>
    rw [List.foldl_append, List.filter_append]
    simp only [List.foldl_cons, List.foldl_nil]
    by_cases h : k = idf a
    · have hf : List.filter (fun c => decide (idf c = k)) [a] = [a] := by
        simp [List.filter_cons, h]
      rw [hf, List.getLast?_concat, if_pos h]
    · have hf : List.filter (fun c => decide (idf c = k)) [a] = [] := by
        have h' : ¬ idf a = k := fun e => h e.symm
        simp [List.filter_cons, h']
      rw [hf, List.append_nil, if_neg h]
      exact ih

theorem mem_stableInsert {α : Type} (less : α → α → Bool) (x y : α) (l : List α) :
    y ∈ stableInsert less x l ↔ y = x ∨ y ∈ l := by
  induction l with
  | nil => simp [stableInsert]
  | cons a l ih =>
    unfold stableInsert
    split_ifs
    · simp only [List.mem_cons, ih]; tauto
    · simp only [List.mem_cons]

theorem stableInsert_sorted (x : ust_note) (l : List ust_note)
    (h : l.Pairwise (fun a b => a.pulseOffset.toInt ≤ b.pulseOffset.toInt)) :
    (stableInsert dataNotesComparison x l).Pairwise
      (fun a b => a.pulseOffset.toInt ≤ b.pulseOffset.toInt) := by
  induction l with
  | nil => simp [stableInsert]
  | cons a l ih =>
    obtain ⟨ha, hl⟩ := List.pairwise_cons.mp h
    unfold stableInsert
    split_ifs with hlt
    · have hax : a.pulseOffset.toInt < x.pulseOffset.toInt := by
        simpa [dataNotesComparison] using hlt
      refine List.pairwise_cons.mpr ⟨?_, ih hl⟩
      intro y hy
      rcases (mem_stableInsert _ x y l).mp hy with rfl | hy
      · omega
      · exact ha y hy
    · have hxa : x.pulseOffset.toInt ≤ a.pulseOffset.toInt := by
        simpa [dataNotesComparison] using hlt
      refine List.pairwise_cons.mpr ⟨?_, h⟩
      intro y hy
      rcases List.mem_cons.mp hy with rfl | hy
      · exact hxa
      · have := ha y hy; omega

theorem qStableSort_sorted (l : List ust_note) :
    (qStableSort dataNotesComparison l).Pairwise
      (fun a b => a.pulseOffset.toInt ≤ b.pulseOffset.toInt) := by
  induction l with
  | nil => simp [qStableSort]
  | cons a l ih => exact stableInsert_sorted a _ ih

/-! ## The claims -/

/-- C1 (as stated, refuted). A session holds note 1; an event that adds a note
with id 1 is applied forward and then backward: the store ends up empty, not
the store it was, whatever the default-constructed note is. -/
theorem C1_counterexample :
    ¬ ∃ d0 : ust_note,
      (processEvent d0 (some { sampleAdd with forward := false })
        (processEvent d0 (some { sampleAdd with forward := true }) sampleSession).2).2.noteMap
        = sampleSession.noteMap := by
  rintro ⟨d0, h⟩
  simp [processEvent, sampleAdd, sampleSession, applyEvent_NoteAdded, reallyForward,
    QMap.insert, QMap.remove] at h

/-- C1 (amended). For every note store and every event that agrees with it
(`agrees`: an addition meets none of its ids in the store, a deletion meets
each of its records as the stored note, a resize, move or retext meets each
of its ids with the recorded previous values as the current ones), applying
the event forward and then backward gives back the store, entry for entry:
the same ids, each with the same lyric, pulseOffset, pulseLength and
keyNumber. -/
theorem C1_forward_then_backward_restores (d0 : ust_note) (s : qtauSession) (e : qtauEvent)
    (hS : QMap.WF s.noteMap) (h : agrees s.noteMap { e with forward := true } = true) :
    (processEvent d0 (some { e with forward := false })
      (processEvent d0 (some { e with forward := true }) s).2).2.noteMap = s.noteMap := by
  have := processEvent_roundtrip d0 s { e with forward := true } hS h
  simpa [reversed] using this

/-- C1 on a session that holds note 1, for the event that resizes note 1 from
length 480 to 960. -/
theorem C1_witness :
    (processEvent sampleDefault (some { sampleResize with forward := false })
      (processEvent sampleDefault (some { sampleResize with forward := true })
        sampleSession).2).2.noteMap = sampleSession.noteMap :=
  C1_forward_then_backward_restores sampleDefault sampleSession sampleResize
    (by decide) (by decide)

/-- C2 (as stated, refuted). A freshly constructed session holds no note 7; a
resize event that refers to id 7 is processed with success, whatever the
default-constructed note is. -/
theorem C2_counterexample :
    QMap.contains 7 newSession.noteMap = false
      ∧ ¬ ∃ d0 : ust_note, (processEvent d0 (some sampleResizeMissing) newSession).1 = false := by
  refine ⟨by decide, ?_⟩
  rintro ⟨d0, h⟩
  simp [processEvent, sampleResizeMissing] at h

/-- C2 (amended). For every note store and every resize, move or retext event,
also one whose changeset refers to ids that are not in the store,
`processEvent` returns true and every id of the changeset is in the store
afterwards (a missing id is inserted, default-constructed, and changed);
`onUIEvent` then pushes the event onto the past stack. -/
theorem C2_missing_id_is_accepted (d0 : ust_note) (s : qtauSession) (e : qtauEvent)
    (hk : isResizeMoveText e = true) :
    (processEvent d0 (some e) s).1 = true
      ∧ (∀ c ∈ changeRecords e.data,
          QMap.contains c.id (processEvent d0 (some e) s).2.noteMap = true)
      ∧ (onUIEvent d0 (some e) s).events = e :: s.events := by
  have hok : (processEvent d0 (some e) s).1 = true := by
    obtain ⟨data, fwd, sp⟩ := e
    cases data <;> simp [processEvent, isResizeMoveText] at hk ⊢
  refine ⟨hok, ?_, (onUIEvent_of_success d0 e s hok).1⟩
  obtain ⟨data, fwd, sp⟩ := e
  cases data with
  | add cs del => simp [isResizeMoveText] at hk
  | move cs =>
    intro c hc
    simp only [changeRecords, List.mem_map] at hc
    obtain ⟨c', hc', rfl⟩ := hc
    exact contains_foldl_modify d0 noteMoveData.id (moveNote fwd) cs s.noteMap c' hc'
  | resize cs =>
    intro c hc
    simp only [changeRecords, List.mem_map] at hc
    obtain ⟨c', hc', rfl⟩ := hc
    exact contains_foldl_modify d0 noteResizeData.id (resizeNote fwd) cs s.noteMap c' hc'
  | text cs =>
    intro c hc
    simp only [changeRecords, List.mem_map] at hc
    obtain ⟨c', hc', rfl⟩ := hc
    exact contains_foldl_modify d0 noteTextData.id (retextNote fwd) cs s.noteMap c' hc'
  | effect => simp [isResizeMoveText] at hk
  | other t => simp [isResizeMoveText] at hk

/-- C2 on a freshly constructed session, for a resize of the missing note 7. -/
theorem C2_witness :
    (processEvent sampleDefault (some sampleResizeMissing) newSession).1 = true
      ∧ (∀ c ∈ changeRecords sampleResizeMissing.data,
          QMap.contains c.id
            (processEvent sampleDefault (some sampleResizeMissing) newSession).2.noteMap = true)
      ∧ (onUIEvent sampleDefault (some sampleResizeMissing) newSession).events
          = sampleResizeMissing :: newSession.events :=
  C2_missing_id_is_accepted sampleDefault newSession sampleResizeMissing (by decide)

/-- C3. Event application is all or nothing. For every session and every
event, null or of an unknown type included: either `processEvent` returns true
and the store is the old store with every change record of the changeset
applied, in order, and `onUIEvent` pushes the event onto the past stack; or
`processEvent` returns false, the store is exactly the old store, and
`onUIEvent` leaves the store and both stacks as they were. -/
theorem C3_all_or_nothing (d0 : ust_note) (e : Option qtauEvent) (s : qtauSession) :
    ((processEvent d0 e s).1 = true
      ∧ ∃ ev, e = some ev
        ∧ (processEvent d0 e s).2.noteMap
            = (changeRecords ev.data).foldl (fun m c => applyChange d0 ev.forward c m) s.noteMap
        ∧ (onUIEvent d0 e s).events = ev :: s.events)
    ∨ ((processEvent d0 e s).1 = false
      ∧ (processEvent d0 e s).2.noteMap = s.noteMap
      ∧ (onUIEvent d0 e s).noteMap = s.noteMap
      ∧ (onUIEvent d0 e s).events = s.events
      ∧ (onUIEvent d0 e s).futureEvents = s.futureEvents) := by
  cases e with
  | none => right; simp [processEvent, onUIEvent]
  | some ev =>
    by_cases hok : (processEvent d0 (some ev) s).1 = true
    · left
      refine ⟨hok, ev, rfl, ?_, (onUIEvent_of_success d0 ev s hok).1⟩
      obtain ⟨data, fwd, sp⟩ := ev
      cases data with
      | add cs del =>
        simp only [processEvent, changeRecords, applyEvent_NoteAdded, List.foldl_map,
          applyChange]
        split_ifs <;> rfl
      | move cs => simp [processEvent, changeRecords, applyEvent_NoteMoved, List.foldl_map,
          applyChange]
      | resize cs => simp [processEvent, changeRecords, applyEvent_NoteResized, List.foldl_map,
          applyChange]
      | text cs => simp [processEvent, changeRecords, applyEvent_NoteLyrics, List.foldl_map,
          applyChange]
      | effect => simp [processEvent, changeRecords, applyEvent_NoteEffects]
      | other t => simp [processEvent] at hok
    · right
      obtain ⟨data, fwd, sp⟩ := ev
      cases data <;> simp [processEvent, onUIEvent] at hok ⊢

/-- C4 (as stated, refuted). A freshly constructed session (empty past, empty
store) commits one delete event for note 1, which removes nothing; the one
undo that follows applies it backward, which adds note 1: the store is not the
store before the commit, whatever the default-constructed note is. -/
theorem C4_counterexample :
    newSession.events = []
      ∧ (¬ ∃ d0 : ust_note,
          (onUIEvent d0 (some sampleDelete) newSession).events ≠ [sampleDelete])
      ∧ ¬ ∃ d0 : ust_note,
          (undo d0 (onUIEvent d0 (some sampleDelete) newSession)).noteMap
            = newSession.noteMap := by
  have hev : ∀ d0, (onUIEvent d0 (some sampleDelete) newSession).events = [sampleDelete] :=
    fun d0 => (onUIEvent_of_success d0 sampleDelete newSession rfl).1
  refine ⟨rfl, ?_, ?_⟩
  · rintro ⟨d0, h⟩
    exact h (hev d0)
  · rintro ⟨d0, h⟩
    obtain ⟨_, _, u3, _⟩ := undo_of_cons d0 _ sampleDelete [] (hev d0)
    rw [u3, processEvent_noteMap_congr d0 _ _ newSession
      ((onUIEvent_of_success d0 sampleDelete newSession rfl).2.trans rfl)] at h
    simp [processEvent, sampleDelete, reversed, newSession, applyEvent_NoteAdded,
      reallyForward, QMap.insert] at h

/-- C4 (amended). For every session whose past stack is empty and every
sequence of events each submitted through `onUIEvent`, committed with success
and in agreement with the store it meets (`commitsAgree`), as many `undo()`
calls as there were commits give back the note store the session had before
them, and `canUndo()` is false. -/
theorem C4_undo_all_restores (d0 : ust_note) (s : qtauSession) (es : List qtauEvent)
    (hS : QMap.WF s.noteMap) (hpast : s.events = [])
    (h : commitsAgree d0 s es = true) :
    ((undo d0)^[es.length] (submitAll d0 es s)).noteMap = s.noteMap
      ∧ canUndo ((undo d0)^[es.length] (submitAll d0 es s)) = false := by
  obtain ⟨h1, h2⟩ := undo_all_commits d0 es s hS h
  refine ⟨h1, ?_⟩
  simp [canUndo, h2, hpast]

/-- C4 on a freshly constructed session: an add, a resize and a move of note 1
are committed and undone. -/
theorem C4_witness :
    ((undo sampleDefault)^[[sampleAdd, sampleResize, sampleMove].length]
        (submitAll sampleDefault [sampleAdd, sampleResize, sampleMove] newSession)).noteMap
        = newSession.noteMap
      ∧ canUndo ((undo sampleDefault)^[[sampleAdd, sampleResize, sampleMove].length]
          (submitAll sampleDefault [sampleAdd, sampleResize, sampleMove] newSession)) = false :=
  C4_undo_all_restores sampleDefault newSession [sampleAdd, sampleResize, sampleMove]
    (by decide) rfl (by decide)

/-- C5. For every session with a non-empty past: right after `setSaved()`
`modified` is false; after one further committed edit (an event as the UI
creates it, its save-point flag clear) it is true; after any `j ≥ 1` calls of
`undo()`, which pop the save-point event off the past (down to the empty
past), it is true; and after `j` undos and `j` redos, which bring the
save-point event back to the top of the past, it is false. -/
theorem C5_modified_follows_save_point (d0 : ust_note) (s : qtauSession)
    (hpast : s.events ≠ []) :
    (setSaved s).isModified = false
      ∧ (∀ e : qtauEvent, e.savePoint = false →
          (processEvent d0 (some e) (setSaved s)).1 = true →
          (onUIEvent d0 (some e) (setSaved s)).isModified = true)
      ∧ (∀ j, 1 ≤ j → ((undo d0)^[j] (setSaved s)).isModified = true)
      ∧ (∀ j, j ≤ s.events.length →
          ((redo d0)^[j] ((undo d0)^[j] (setSaved s))).isModified = false) := by
  cases hev : s.events with
  | nil => exact absurd hev hpast
  | cons top rest =>
    obtain ⟨s1, _, s3, s4, _⟩ := setSaved_of_cons s top rest hev
    refine ⟨s4, ?_, ?_, ?_⟩
    · intro e he hok
      rw [onUIEvent_isModified d0 e _ hok, he]
      rfl
    · intro j hj
      obtain ⟨i, rfl⟩ : ∃ i, j = i + 1 := ⟨j - 1, by omega⟩
      rw [Function.iterate_succ_apply]
      obtain ⟨u1, _, _, u4, u5⟩ := undo_of_cons d0 (setSaved s) _ _ s1
      have hrest : ∀ x ∈ rest.map (setSavePoint false), x.savePoint = false := by
        intro x hx
        obtain ⟨y, _, rfl⟩ := List.mem_map.mp hx
        rfl
      apply undo_iterate_modified
      · rw [u4]; exact s3
      · rw [u1]; exact hrest
      · rw [u5, s3]
        cases hr : rest.map (setSavePoint false) with
        | nil => rfl
        | cons t r =>
          have := hrest t (by rw [hr]; exact List.mem_cons_self _ _)
          simp [derivedModified, this]
    · intro j hj
      have hlen : j ≤ (setSaved s).events.length := by
        rw [s1]; simpa using hj
      rcases Nat.eq_zero_or_pos j with h0 | hpos
      · subst h0; exact s4
      · rw [(redo_undo_iterate d0 j (setSaved s) hlen).2.2.2 hpos, s1]
        rfl

/-- C5 on a session with two committed events. -/
theorem C5_witness :
    (setSaved sampleEdited).isModified = false
      ∧ (∀ e : qtauEvent, e.savePoint = false →
          (processEvent sampleDefault (some e) (setSaved sampleEdited)).1 = true →
          (onUIEvent sampleDefault (some e) (setSaved sampleEdited)).isModified = true)
      ∧ (∀ j, 1 ≤ j → ((undo sampleDefault)^[j] (setSaved sampleEdited)).isModified = true)
      ∧ (∀ j, j ≤ sampleEdited.events.length →
          ((redo sampleDefault)^[j] ((undo sampleDefault)^[j] (setSaved sampleEdited))).isModified
            = false) :=
  C5_modified_follows_save_point sampleDefault sampleEdited (by decide)

/-- C6 (as stated, refuted). After a commit, a save and an undo the past is
empty and `hadSavePoint` is true; the status recomputation then sets `modified`
to true, not to false. -/
theorem C6_counterexample :
    sampleSavedUndone.events = [] ∧ sampleSavedUndone.hadSavePoint = true
      ∧ (stackChanged sampleSavedUndone).isModified = true := by
  decide

/-- C6 (amended). After every status recomputation (`stackChanged`), which
leaves the history as it is, `modified` is derived from the history: when the
past is non-empty, it is true unless the top event of the past carries the
save-point flag; when the past is empty, it equals `hadSavePoint` (true exactly
when `hadSavePoint` is true). -/
theorem C6_modified_is_derived (s : qtauSession) :
    (stackChanged s).events = s.events
      ∧ (stackChanged s).hadSavePoint = s.hadSavePoint
      ∧ (∀ top rest, (stackChanged s).events = top :: rest →
          ((stackChanged s).isModified = true ↔ top.savePoint = false))
      ∧ ((stackChanged s).events = [] →
          ((stackChanged s).isModified = true ↔ (stackChanged s).hadSavePoint = true)) := by
  obtain ⟨h1, _, _, h4⟩ := stackChanged_fields s
  rw [h1, h4, stackChanged_isModified]
  refine ⟨rfl, rfl, ?_, ?_⟩
  · intro top rest h
    rw [h]
    simp [derivedModified]
  · intro h
    rw [h]
    simp [derivedModified]

/-- C7. For every session with a non-empty past, after `setSaved()` the top
event of the past has its save-point flag set, no other event of the past and
no event of the future has it set, `hadSavePoint` is true and `modified` is
false; the note store, the data and direction of every event of both stacks
and their order, and the other fields of the session are unchanged. -/
theorem C7_setSaved_marks_top (s : qtauSession) (hpast : s.events ≠ []) :
    (setSaved s).events.head?.map qtauEvent.savePoint = some true
      ∧ (∀ e ∈ (setSaved s).events.tail, e.savePoint = false)
      ∧ (∀ e ∈ (setSaved s).futureEvents, e.savePoint = false)
      ∧ (setSaved s).hadSavePoint = true
      ∧ (setSaved s).isModified = false
      ∧ (setSaved s).noteMap = s.noteMap
      ∧ (setSaved s).events.map (fun e => (e.data, e.forward))
          = s.events.map (fun e => (e.data, e.forward))
      ∧ (setSaved s).futureEvents.map (fun e => (e.data, e.forward))
          = s.futureEvents.map (fun e => (e.data, e.forward))
      ∧ (setSaved s).playSt = s.playSt ∧ (setSaved s).data = s.data
      ∧ (setSaved s).docName = s.docName ∧ (setSaved s).filePath = s.filePath := by
  cases hev : s.events with
  | nil => exact absurd hev hpast
  | cons top rest =>
    obtain ⟨s1, s2, s3, s4, s5⟩ := setSaved_of_cons s top rest hev
    rw [s1, s2]
    refine ⟨rfl, ?_, ?_, s3, s4, s5, ?_, ?_, ?_⟩
    · intro e he
      obtain ⟨y, _, rfl⟩ := List.mem_map.mp he
      rfl
    · intro e he
      obtain ⟨y, _, rfl⟩ := List.mem_map.mp he
      rfl
    · simp [setSavePoint, Function.comp_def]
    · simp [setSavePoint, Function.comp_def]
    · obtain ⟨ev, fut, nm, data, dn, fp, im, hsp, ps, vw, mw, sg, lg⟩ := s
      simp only at hev
      subst hev
      cases fut <;> cases im <;> simp [setSaved, canUndo, setModified]

/-- C7 on a session with two committed events. -/
theorem C7_witness :
    (setSaved sampleEdited).events.head?.map qtauEvent.savePoint = some true
      ∧ (∀ e ∈ (setSaved sampleEdited).events.tail, e.savePoint = false)
      ∧ (∀ e ∈ (setSaved sampleEdited).futureEvents, e.savePoint = false)
      ∧ (setSaved sampleEdited).hadSavePoint = true
      ∧ (setSaved sampleEdited).isModified = false
      ∧ (setSaved sampleEdited).noteMap = sampleEdited.noteMap
      ∧ (setSaved sampleEdited).events.map (fun e => (e.data, e.forward))
          = sampleEdited.events.map (fun e => (e.data, e.forward))
      ∧ (setSaved sampleEdited).futureEvents.map (fun e => (e.data, e.forward))
          = sampleEdited.futureEvents.map (fun e => (e.data, e.forward))
      ∧ (setSaved sampleEdited).playSt = sampleEdited.playSt
      ∧ (setSaved sampleEdited).data = sampleEdited.data
      ∧ (setSaved sampleEdited).docName = sampleEdited.docName
      ∧ (setSaved sampleEdited).filePath = sampleEdited.filePath :=
  C7_setSaved_marks_top sampleEdited (by decide)

/-- C8. For every session whose past is empty, `setSaved()` fails: it only
reports `Saving an empty session?`. `hadSavePoint`, `modified`, the events of
the future with their save-point flags, the note store and the playback state
are unchanged, and no signal is emitted (so no modified-status notification). -/
theorem C8_setSaved_empty_past (s : qtauSession) (hpast : s.events = []) :
    setSaved s = { s with vsLog := s.vsLog ++ ["Saving an empty session?"] }
      ∧ (setSaved s).hadSavePoint = s.hadSavePoint
      ∧ (setSaved s).isModified = s.isModified
      ∧ (setSaved s).futureEvents = s.futureEvents
      ∧ (setSaved s).events = s.events
      ∧ (setSaved s).noteMap = s.noteMap
      ∧ (setSaved s).playSt = s.playSt
      ∧ (setSaved s).signals = s.signals := by
  have h : setSaved s = { s with vsLog := s.vsLog ++ ["Saving an empty session?"] } := by
    simp [setSaved, canUndo, hpast]
  rw [h]
  exact ⟨rfl, rfl, rfl, rfl, rfl, rfl, rfl, rfl⟩

/-- C8 on a session whose past was emptied by an undo. -/
theorem C8_witness :
    setSaved sampleSavedUndone
        = { sampleSavedUndone with
            vsLog := sampleSavedUndone.vsLog ++ ["Saving an empty session?"] }
      ∧ (setSaved sampleSavedUndone).hadSavePoint = sampleSavedUndone.hadSavePoint
      ∧ (setSaved sampleSavedUndone).isModified = sampleSavedUndone.isModified
      ∧ (setSaved sampleSavedUndone).futureEvents = sampleSavedUndone.futureEvents
      ∧ (setSaved sampleSavedUndone).events = sampleSavedUndone.events
      ∧ (setSaved sampleSavedUndone).noteMap = sampleSavedUndone.noteMap
      ∧ (setSaved sampleSavedUndone).playSt = sampleSavedUndone.playSt
      ∧ (setSaved sampleSavedUndone).signals = sampleSavedUndone.signals :=
  C8_setSaved_empty_past sampleSavedUndone (by decide)

/-- C9. For every note store and every addition event the effective direction
is the forward flag XOR the delete flag. When it is forward, after
`applyEvent_NoteAdded` every id of the changeset maps to the note whose id,
lyric, `pulseOffset`, `pulseLength` and `keyNumber` are the id, lyrics,
`pulseOffset`, `pulseLength` and `keyNumber` of the last change record that
carries the id; when it is backward, no id of the changeset is in the store. In both cases the value at every id outside the
changeset is unchanged. So a delete event applied backward is an add applied
forward, and an add applied backward is a delete applied forward. -/
theorem C9_addition_effective_direction (S : QMap) (cs : List noteAddData)
    (fwd del : Bool) :
    reallyForward fwd del = xor fwd del
      ∧ (xor fwd del = true → ∀ c ∈ cs, ∃ c' ∈ cs,
          (cs.filter (fun x => decide (x.id = c.id))).getLast? = some c'
            ∧ c'.id = c.id
            ∧ QMap.value? c.id (applyEvent_NoteAdded cs fwd del S)
                = some { id := c'.id, lyric := c'.lyrics, pulseOffset := c'.pulseOffset,
                         pulseLength := c'.pulseLength, keyNumber := c'.keyNumber }
            ∧ ∃ n, QMap.value? c.id (applyEvent_NoteAdded cs fwd del S) = some n
                ∧ n.id = c.id ∧ n.lyric = c'.lyrics ∧ n.pulseOffset = c'.pulseOffset
                ∧ n.pulseLength = c'.pulseLength ∧ n.keyNumber = c'.keyNumber)
      ∧ (xor fwd del = false → ∀ c ∈ cs,
          QMap.contains c.id (applyEvent_NoteAdded cs fwd del S) = false)
      ∧ (∀ k, (∀ c ∈ cs, k ≠ c.id) →
          QMap.value? k (applyEvent_NoteAdded cs fwd del S) = QMap.value? k S)
      ∧ applyEvent_NoteAdded cs false true S = applyEvent_NoteAdded cs true false S
      ∧ applyEvent_NoteAdded cs false false S = applyEvent_NoteAdded cs true true S := by
  have hx : reallyForward fwd del = xor fwd del := by
    cases fwd <;> cases del <;> rfl
  refine ⟨hx, ?_, ?_, ?_, rfl, rfl⟩
  · intro h c hc
    have hne : (cs.filter (fun x => decide (x.id = c.id))) ≠ [] := by
      intro he
      have : c ∈ cs.filter (fun x => decide (x.id = c.id)) := by
        simp [List.mem_filter, hc]
      rw [he] at this
      cases this
    obtain ⟨c', hc'⟩ : ∃ c', (cs.filter (fun x => decide (x.id = c.id))).getLast? = some c' := by
      cases hl : (cs.filter (fun x => decide (x.id = c.id))).getLast? with
      | none => exact absurd (List.getLast?_eq_none_iff.mp hl) hne
      | some c' => exact ⟨c', rfl⟩
    have hmem : c' ∈ cs :=
      (List.mem_filter.mp (List.mem_of_getLast?_eq_some hc')).1
    have hid : c'.id = c.id := by
      have := (List.mem_filter.mp (List.mem_of_getLast?_eq_some hc')).2
      simpa using this
    have hv : QMap.value? c.id (applyEvent_NoteAdded cs fwd del S)
        = some { id := c'.id, lyric := c'.lyrics, pulseOffset := c'.pulseOffset,
                 pulseLength := c'.pulseLength, keyNumber := c'.keyNumber } := by
      simp only [applyEvent_NoteAdded, hx, h, if_true]
      rw [QMap.value?_foldl_insert,
        foldl_last noteAddData.id (fun c => some (noteOfAdd c)), hc']
      rfl
    exact ⟨c', hmem, hc', hid, hv, _, hv, hid, rfl, rfl, rfl, rfl⟩
  · intro h c hc
    simp only [applyEvent_NoteAdded, hx, h, QMap.contains]
    simp only [Bool.false_eq_true, if_false]
    rw [QMap.value?_foldl_remove]
    rcases foldl_const noteAddData.id (fun _ => (none : Option ust_note)) c.id cs
      (QMap.value? c.id S) with ⟨_, hn⟩ | ⟨_, _, _, he⟩
    · exact absurd rfl (hn c hc)
    · rw [he]; rfl
  · intro k hk
    unfold applyEvent_NoteAdded
    split_ifs
    · rw [QMap.value?_foldl_insert]
      exact foldl_skip noteAddData.id (fun c _ => some (noteOfAdd c)) k cs hk _
    · rw [QMap.value?_foldl_remove]
      exact foldl_skip noteAddData.id (fun _ _ => (none : Option ust_note)) k cs hk _

/-- C10. For every note store, the note list that `ustRef` leaves in the
exported document is sorted non-decreasing by `pulseOffset`: every two
adjacent notes `a`, `b` of it have `a.pulseOffset ≤ b.pulseOffset` (and so
have every two notes, the first before the second). -/
theorem C10_ustRef_sorted (d0 : ust_note) (s : qtauSession) :
    List.Chain' (fun a b => a.pulseOffset.toInt ≤ b.pulseOffset.toInt) (ustRef d0 s).data.notes
      ∧ List.Pairwise (fun a b => a.pulseOffset.toInt ≤ b.pulseOffset.toInt) (ustRef d0 s).data.notes := by
  have h : List.Pairwise (fun a b => a.pulseOffset.toInt ≤ b.pulseOffset.toInt) (ustRef d0 s).data.notes :=
    qStableSort_sorted _
  exact ⟨List.Pairwise.chain' h, h⟩

/-- C11. For every session, after `stackChanged` the playback state is
`noAudio` if the note store is empty and no background audio handle is held,
and `needsSynth` otherwise, whatever the playback state was before. After the
three status signals, one `playbackStateChanged` signal with the new state is
emitted when the new state differs from the previous one, and none when it is
the same. -/
theorem C11_stackChanged_playback (s : qtauSession) :
    (s.noteMap = [] ∧ s.musicWave = none →
        (stackChanged s).playSt = EAudioPlayback.noAudio)
      ∧ (¬ (s.noteMap = [] ∧ s.musicWave = none) →
        (stackChanged s).playSt = EAudioPlayback.needsSynth)
      ∧ (stackChanged s).signals
          = s.signals
            ++ [Signal.undoStatus (canUndo s), Signal.redoStatus (canRedo s),
                Signal.modifiedStatus (stackChanged s).isModified]
            ++ (if (stackChanged s).playSt ≠ s.playSt then
                  [Signal.playbackStateChanged (stackChanged s).playSt]
                else []) := by
  obtain ⟨ev, fut, nm, data, dn, fp, im, hsp, ps, vw, mw, sg, lg⟩ := s
  cases nm <;> cases mw <;> cases ps <;>
    simp [stackChanged, setPlaybackState, QMap.isEmpty]

/-- C12 (the code at the example). From a freshly constructed session: after
the commit of the addition of note 1 the exported document is the single note
1; after the commit of the resize note 1 has length 960; after one undo it has
length 480; after a second undo the note store is empty, and the playback
state is `needsSynth`, not `noAudio`, and so after `stackChanged`. -/
theorem C12_example_ends_in_needsSynth (d0 : ust_note) :
    (ustRef d0 (onUIEvent d0 (some sampleAdd) newSession)).data.notes = [sampleNote]
      ∧ QMap.value? 1 (onUIEvent d0 (some sampleResize)
          (onUIEvent d0 (some sampleAdd) newSession)).noteMap
          = some (ust_note.mk 1 "la" 0 960 60)
      ∧ QMap.value? 1 (undo d0 (onUIEvent d0 (some sampleResize)
          (onUIEvent d0 (some sampleAdd) newSession))).noteMap
          = some (ust_note.mk 1 "la" 0 480 60)
      ∧ (undo d0 (undo d0 (onUIEvent d0 (some sampleResize)
          (onUIEvent d0 (some sampleAdd) newSession)))).noteMap = []
      ∧ (undo d0 (undo d0 (onUIEvent d0 (some sampleResize)
          (onUIEvent d0 (some sampleAdd) newSession)))).playSt = EAudioPlayback.needsSynth
      ∧ (undo d0 (undo d0 (onUIEvent d0 (some sampleResize)
          (onUIEvent d0 (some sampleAdd) newSession)))).playSt ≠ EAudioPlayback.noAudio
      ∧ (stackChanged (undo d0 (undo d0 (onUIEvent d0 (some sampleResize)
          (onUIEvent d0 (some sampleAdd) newSession))))).playSt
          = EAudioPlayback.needsSynth := by
  refine ⟨rfl, rfl, rfl, rfl, rfl, ?_, rfl⟩
  intro h
  have h' : EAudioPlayback.needsSynth = EAudioPlayback.noAudio := h
  cases h'

/-- C13. For every session, `startPlayback` emits exactly the request of the
current playback state and nothing else: a pause request when it is `playing`
or `repeating`, a start request when it is `paused` or `stopped`, a synthesis
request when it is `needsSynth`, and no signal at all when it is `noAudio`
(only the error is logged); the playback state, the note store and the rest of
the session are unchanged. -/
theorem C13_startPlayback_request (stateChar : EAudioPlayback → Char) (s : qtauSession) :
    (startPlayback stateChar s).signals
        = s.signals ++
          (match s.playSt with
           | EAudioPlayback.playing => [Signal.requestPausePlayback]
           | EAudioPlayback.repeating => [Signal.requestPausePlayback]
           | EAudioPlayback.paused => [Signal.requestStartPlayback]
           | EAudioPlayback.stopped => [Signal.requestStartPlayback]
           | EAudioPlayback.needsSynth => [Signal.requestSynthesis]
           | EAudioPlayback.noAudio => [])
      ∧ (startPlayback stateChar s).playSt = s.playSt
      ∧ (startPlayback stateChar s).noteMap = s.noteMap
      ∧ { startPlayback stateChar s with signals := s.signals, vsLog := s.vsLog } = s
      ∧ (s.playSt ≠ EAudioPlayback.noAudio → (startPlayback stateChar s).vsLog = s.vsLog) := by
  obtain ⟨ev, fut, nm, data, dn, fp, im, hsp, ps, vw, mw, sg, lg⟩ := s
  cases ps <;> simp [startPlayback]

/-- C14. For every session, a load whose parsed document has no note returns
false and only logs the error: the note store, both history stacks,
`docName`, `filePath`, the modified flag, the playback state, the document
data and the emitted signals are what they were. -/
theorem C14_empty_load_changes_nothing (ustFromStrings : List String → ust)
    (baseName : String → String) (fileName : String) (ustStrings : List String)
    (s : qtauSession) (h : (ustFromStrings ustStrings).notes = []) :
    (loadUST ustFromStrings baseName fileName (some ustStrings) s).1 = false
      ∧ (∃ msg, (loadUST ustFromStrings baseName fileName (some ustStrings) s).2
          = { s with vsLog := s.vsLog ++ [msg] })
      ∧ (loadUST ustFromStrings baseName fileName (some ustStrings) s).2.noteMap = s.noteMap
      ∧ (loadUST ustFromStrings baseName fileName (some ustStrings) s).2.events = s.events
      ∧ (loadUST ustFromStrings baseName fileName (some ustStrings) s).2.futureEvents
          = s.futureEvents
      ∧ (loadUST ustFromStrings baseName fileName (some ustStrings) s).2.docName = s.docName
      ∧ (loadUST ustFromStrings baseName fileName (some ustStrings) s).2.filePath = s.filePath
      ∧ (loadUST ustFromStrings baseName fileName (some ustStrings) s).2.isModified
          = s.isModified
      ∧ (loadUST ustFromStrings baseName fileName (some ustStrings) s).2.playSt = s.playSt := by
  by_cases he : ustStrings.isEmpty = true
  · simp [loadUST, he]
  · simp [loadUST, he, h]

/-- C14 on the session that holds the two-note document, for a file in which
the parser finds no note. -/
theorem C14_witness :
    (loadUST sampleParse sampleBaseName "none.ust" (some ["none"]) sampleLoadedTwo).1 = false
      ∧ (∃ msg, (loadUST sampleParse sampleBaseName "none.ust" (some ["none"]) sampleLoadedTwo).2
          = { sampleLoadedTwo with vsLog := sampleLoadedTwo.vsLog ++ [msg] })
      ∧ (loadUST sampleParse sampleBaseName "none.ust" (some ["none"]) sampleLoadedTwo).2.noteMap
          = sampleLoadedTwo.noteMap
      ∧ (loadUST sampleParse sampleBaseName "none.ust" (some ["none"]) sampleLoadedTwo).2.events
          = sampleLoadedTwo.events
      ∧ (loadUST sampleParse sampleBaseName "none.ust" (some ["none"])
          sampleLoadedTwo).2.futureEvents = sampleLoadedTwo.futureEvents
      ∧ (loadUST sampleParse sampleBaseName "none.ust" (some ["none"]) sampleLoadedTwo).2.docName
          = sampleLoadedTwo.docName
      ∧ (loadUST sampleParse sampleBaseName "none.ust" (some ["none"]) sampleLoadedTwo).2.filePath
          = sampleLoadedTwo.filePath
      ∧ (loadUST sampleParse sampleBaseName "none.ust" (some ["none"])
          sampleLoadedTwo).2.isModified = sampleLoadedTwo.isModified
      ∧ (loadUST sampleParse sampleBaseName "none.ust" (some ["none"]) sampleLoadedTwo).2.playSt
          = sampleLoadedTwo.playSt :=
  C14_empty_load_changes_nothing sampleParse sampleBaseName "none.ust" ["none"]
    sampleLoadedTwo (by decide)

/-- C15 (the code at a failing input). A session holds the two-note document
that was loaded first; the load of the one-note document succeeds, and
afterwards the store holds two notes, with ids 1 and 2: note 2 of the
previously held document is still there. -/
theorem C15_load_keeps_previous_note :
    (loadUST sampleParse sampleBaseName "one.ust" (some ["one"]) sampleLoadedTwo).1 = true
      ∧ (sampleParse ["one"]).notes.length = 1
      ∧ QMap.keys (loadUST sampleParse sampleBaseName "one.ust" (some ["one"])
          sampleLoadedTwo).2.noteMap = [1, 2]
      ∧ QMap.value? 2 sampleLoadedTwo.noteMap = some (ust_note.mk 2 "re" 480 480 62)
      ∧ QMap.value? 2 (loadUST sampleParse sampleBaseName "one.ust" (some ["one"])
          sampleLoadedTwo).2.noteMap = some (ust_note.mk 2 "re" 480 480 62) := by
  decide

/-- What a successful load leaves: the history is cleared, the synthesized
addition is applied to the store as it was and announced by `onEvent`. -/
theorem loadUST_of_success (ustFromStrings : List String → ust)
    (baseName : String → String) (fileName : String) (file : Option (List String))
    (s : qtauSession) (h : (loadUST ustFromStrings baseName fileName file s).1 = true) :
    ∃ ustStrings, file = some ustStrings
      ∧ (ustFromStrings ustStrings).notes ≠ []
      ∧ (loadUST ustFromStrings baseName fileName file s).2.events = []
      ∧ (loadUST ustFromStrings baseName fileName file s).2.futureEvents = []
      ∧ (loadUST ustFromStrings baseName fileName file s).2.noteMap
          = applyAddedEvent (util_makeAddNotesEvent (ustFromStrings ustStrings)) s.noteMap
      ∧ (loadUST ustFromStrings baseName fileName file s).2.data = ustFromStrings ustStrings
      ∧ Signal.onEvent (util_makeAddNotesEvent (ustFromStrings ustStrings))
          ∈ (loadUST ustFromStrings baseName fileName file s).2.signals := by
  cases file with
  | none => simp [loadUST] at h
  | some ustStrings =>
    refine ⟨ustStrings, rfl, ?_⟩
    by_cases he : ustStrings.isEmpty = true
    · simp [loadUST, he] at h
    · by_cases hn : (ustFromStrings ustStrings).notes.length > 0
      · have hne : (ustFromStrings ustStrings).notes ≠ [] := by
          intro h0; rw [h0] at hn; simp at hn
        have hne' : (ustFromStrings ustStrings).notes.isEmpty = false := by
          cases hl : (ustFromStrings ustStrings).notes with
          | nil => exact absurd hl hne
          | cons a l => rfl
        refine ⟨hne, ?_⟩
        simp only [loadUST, he, hn, Bool.not_true, Bool.not_false, if_true, hne',
          clearHistory]
        unfold setPlaybackState
        split_ifs <;> simp
      · simp [loadUST, he, hn] at h

/-- C16 (as stated, refuted). A freshly constructed session loads the two-note
document with success: afterwards the past holds no event, `canUndo()` is
false, and an undo does not bring the store back to empty, whatever the
default-constructed note is. -/
theorem C16_counterexample :
    (loadUST sampleParse sampleBaseName "two.ust" (some ["two"]) newSession).1 = true
      ∧ sampleLoadedTwo.events = []
      ∧ canUndo sampleLoadedTwo = false
      ∧ ¬ ∃ d0 : ust_note, (undo d0 sampleLoadedTwo).noteMap = [] := by
  refine ⟨by decide, by decide, by decide, ?_⟩
  rintro ⟨d0, h⟩
  rw [undo_of_nil d0 sampleLoadedTwo (by decide)] at h
  exact absurd h (by decide)

/-- C16 (amended). After every successful load the history is empty: the past
holds no event and the future holds none, `canUndo()` is false, and `undo()`
fails and leaves the session, with the loaded document, as it is. The
synthesized addition event is applied to the store directly and announced by
the `onEvent` signal; it is not committed. -/
theorem C16_load_clears_history (d0 : ust_note) (ustFromStrings : List String → ust)
    (baseName : String → String) (fileName : String) (file : Option (List String))
    (s : qtauSession) (h : (loadUST ustFromStrings baseName fileName file s).1 = true) :
    (loadUST ustFromStrings baseName fileName file s).2.events = []
      ∧ (loadUST ustFromStrings baseName fileName file s).2.futureEvents = []
      ∧ canUndo (loadUST ustFromStrings baseName fileName file s).2 = false
      ∧ undo d0 (loadUST ustFromStrings baseName fileName file s).2
          = (loadUST ustFromStrings baseName fileName file s).2
      ∧ ∃ ustStrings, file = some ustStrings
          ∧ (loadUST ustFromStrings baseName fileName file s).2.noteMap
              = applyAddedEvent (util_makeAddNotesEvent (ustFromStrings ustStrings)) s.noteMap
          ∧ Signal.onEvent (util_makeAddNotesEvent (ustFromStrings ustStrings))
              ∈ (loadUST ustFromStrings baseName fileName file s).2.signals := by
  obtain ⟨ustStrings, hf, _, h1, h2, h3, _, h5⟩ :=
    loadUST_of_success ustFromStrings baseName fileName file s h
  refine ⟨h1, h2, ?_, undo_of_nil d0 _ h1, ustStrings, hf, h3, h5⟩
  simp [canUndo, h1]

/-- C16 on a freshly constructed session that loads the two-note document. -/
theorem C16_witness :
    (loadUST sampleParse sampleBaseName "two.ust" (some ["two"]) newSession).2.events = []
      ∧ (loadUST sampleParse sampleBaseName "two.ust" (some ["two"]) newSession).2.futureEvents
          = []
      ∧ canUndo (loadUST sampleParse sampleBaseName "two.ust" (some ["two"]) newSession).2
          = false
      ∧ undo sampleDefault
          (loadUST sampleParse sampleBaseName "two.ust" (some ["two"]) newSession).2
          = (loadUST sampleParse sampleBaseName "two.ust" (some ["two"]) newSession).2
      ∧ ∃ ustStrings, some ["two"] = some ustStrings
          ∧ (loadUST sampleParse sampleBaseName "two.ust" (some ["two"]) newSession).2.noteMap
              = applyAddedEvent (util_makeAddNotesEvent (sampleParse ustStrings))
                  newSession.noteMap
          ∧ Signal.onEvent (util_makeAddNotesEvent (sampleParse ustStrings))
              ∈ (loadUST sampleParse sampleBaseName "two.ust" (some ["two"])
                  newSession).2.signals :=
  C16_load_clears_history sampleDefault sampleParse sampleBaseName "two.ust" (some ["two"])
    newSession (by decide)

/-- With pairwise distinct ids, the fold of note updates at the key of a
record of the changeset is the update of that one record. -/
theorem foldl_unique {ρ : Type} (d0 : ust_note) (idf : ρ → Nat)
    (g : ρ → ust_note → ust_note) (cs : List ρ) (hd : (cs.map idf).Nodup) (c : ρ)
    (hc : c ∈ cs) (o : Option ust_note) :
    cs.foldl (fun o c' => if idf c = idf c' then some (g c' (o.getD d0)) else o) o
      = some (g c (o.getD d0)) := by
  induction cs generalizing o with
  | nil => cases hc
  | cons a l ih =>
    simp only [List.map_cons, List.nodup_cons, List.mem_map, not_exists, not_and] at hd
    obtain ⟨ha, hl⟩ := hd
    simp only [List.foldl_cons]
    rcases List.mem_cons.mp hc with rfl | hc'
    · simp only [if_true]
      exact foldl_skip idf (fun c' o => some (g c' (o.getD d0))) (idf c) l
        (fun c' hc' he => ha c' hc' he.symm) _
    · have hne : idf c ≠ idf a := fun he => ha c hc' he
      simp only [if_neg hne]
      exact ih hl hc' o

/-! ## The signed value of a sum and of a difference of `int`s -/

theorem CInt.toInt_add (a d : CInt)
    (h : -2147483648 ≤ a.toInt + d.toInt ∧ a.toInt + d.toInt < 2147483648) :
    (a + d).toInt = a.toInt + d.toInt := by
  have ha := a.isLt
  have hd := d.isLt
  unfold CInt.toInt at h ⊢
  rw [Fin.val_add]
  split_ifs at h ⊢ <;> omega

theorem CInt.toInt_sub (a d : CInt)
    (h : -2147483648 ≤ a.toInt - d.toInt ∧ a.toInt - d.toInt < 2147483648) :
    (a - d).toInt = a.toInt - d.toInt := by
  have ha := a.isLt
  have hd := d.isLt
  unfold CInt.toInt at h ⊢
  rw [Fin.sub_def]
  simp only
  split_ifs at h ⊢ <;> omega

/-- C17 (as stated, refuted). The store holds note 1 at the pulse offset
2147483647, the largest `int`; the changeset has the one record that moves
note 1 by one pulse. Applied forward, the offset of the note is not its
previous offset plus the delta (2147483648): the `int` wraps around to
-2147483648, whatever the default-constructed note is. -/
theorem C17_counterexample :
    ([sampleMoveOne].map noteMoveData.id).Nodup
      ∧ QMap.value? sampleMoveOne.id [(1, sampleNoteMax)] = some sampleNoteMax
      ∧ sampleNoteMax.pulseOffset.toInt + sampleMoveOne.pulseOffDelta.toInt = 2147483648
      ∧ (¬ ∃ (d0 n' : ust_note),
          QMap.value? sampleMoveOne.id
            (applyEvent_NoteMoved d0 [sampleMoveOne] true [(1, sampleNoteMax)]) = some n'
          ∧ n'.pulseOffset.toInt
              = sampleNoteMax.pulseOffset.toInt + sampleMoveOne.pulseOffDelta.toInt)
      ∧ ¬ ∃ (d0 n' : ust_note),
          QMap.value? sampleMoveOne.id
            (applyEvent_NoteMoved d0 [sampleMoveOne] true [(1, sampleNoteMax)]) = some n'
          ∧ n'.pulseOffset.toInt ≠ -2147483648 := by
  have hv : ∀ d0 : ust_note, QMap.value? sampleMoveOne.id
      (applyEvent_NoteMoved d0 [sampleMoveOne] true [(1, sampleNoteMax)])
      = some (ust_note.mk 1 "la" (2147483647 + 1) 480 62) := fun _ => rfl
  refine ⟨by decide, by decide, by decide, ?_, ?_⟩
  · rintro ⟨d0, n', h1, h2⟩
    rw [hv d0] at h1
    cases h1
    revert h2
    decide
  · rintro ⟨d0, n', h1, h2⟩
    rw [hv d0] at h1
    cases h1
    revert h2
    decide

/-- C17 (amended). For every note store and every move event whose changeset
ids are pairwise distinct and all in the store: after `applyEvent_NoteMoved`
each referenced note has, forward, its previous `pulseOffset` plus
`pulseOffDelta` in `int` arithmetic (the exact sum when the sum is an `int`,
the sum wrapped around modulo `2^32` otherwise) and the record's `keyNumber`,
and backward, its previous `pulseOffset` minus `pulseOffDelta` in `int`
arithmetic (the exact difference when it is an `int`) and the record's
`prevKeyNumber`; in both directions its id, lyric and `pulseLength`, the value
at every id outside the changeset, and the set of ids of the store are
unchanged. -/
theorem C17_move_offset_in_int_arithmetic (d0 : ust_note) (S : QMap)
    (cs : List noteMoveData) (fwd : Bool)
    (hd : (cs.map noteMoveData.id).Nodup)
    (hp : ∀ c ∈ cs, QMap.contains c.id S = true) :
    (∀ c ∈ cs, ∃ n n', QMap.value? c.id S = some n
        ∧ QMap.value? c.id (applyEvent_NoteMoved d0 cs fwd S) = some n'
        ∧ (fwd = true →
            n'.pulseOffset = n.pulseOffset + c.pulseOffDelta
            ∧ (-2147483648 ≤ n.pulseOffset.toInt + c.pulseOffDelta.toInt
                ∧ n.pulseOffset.toInt + c.pulseOffDelta.toInt < 2147483648 →
              n'.pulseOffset.toInt = n.pulseOffset.toInt + c.pulseOffDelta.toInt)
            ∧ n'.keyNumber = c.keyNumber)
        ∧ (fwd = false →
            n'.pulseOffset = n.pulseOffset - c.pulseOffDelta
            ∧ (-2147483648 ≤ n.pulseOffset.toInt - c.pulseOffDelta.toInt
                ∧ n.pulseOffset.toInt - c.pulseOffDelta.toInt < 2147483648 →
              n'.pulseOffset.toInt = n.pulseOffset.toInt - c.pulseOffDelta.toInt)
            ∧ n'.keyNumber = c.prevKeyNumber)
        ∧ n'.id = n.id ∧ n'.lyric = n.lyric ∧ n'.pulseLength = n.pulseLength)
      ∧ (∀ k, (∀ c ∈ cs, k ≠ c.id) →
          QMap.value? k (applyEvent_NoteMoved d0 cs fwd S) = QMap.value? k S)
      ∧ (∀ k, QMap.contains k (applyEvent_NoteMoved d0 cs fwd S) = QMap.contains k S) := by
  have hval : ∀ c ∈ cs, ∀ n, QMap.value? c.id S = some n →
      QMap.value? c.id (applyEvent_NoteMoved d0 cs fwd S) = some (moveNote fwd c n) := by
    intro c hc n hn
    unfold applyEvent_NoteMoved
    rw [QMap.value?_foldl_modify, hn,
      foldl_unique d0 noteMoveData.id (moveNote fwd) cs hd c hc]
    rfl
  have hout : ∀ k, (∀ c ∈ cs, k ≠ c.id) →
      QMap.value? k (applyEvent_NoteMoved d0 cs fwd S) = QMap.value? k S := by
    intro k hk
    unfold applyEvent_NoteMoved
    rw [QMap.value?_foldl_modify]
    exact foldl_skip noteMoveData.id (fun c o => some (moveNote fwd c (o.getD d0))) k cs hk _
  have hsome : ∀ c ∈ cs, ∃ n, QMap.value? c.id S = some n := by
    intro c hc
    have := hp c hc
    unfold QMap.contains at this
    exact Option.isSome_iff_exists.mp this
  refine ⟨?_, hout, ?_⟩
  · intro c hc
    obtain ⟨n, hn⟩ := hsome c hc
    refine ⟨n, moveNote fwd c n, hn, hval c hc n hn, ?_, ?_, ?_, ?_, ?_⟩
    · intro hf; subst hf
      exact ⟨rfl, fun hr => CInt.toInt_add n.pulseOffset c.pulseOffDelta hr, rfl⟩
    · intro hf; subst hf
      exact ⟨rfl, fun hr => CInt.toInt_sub n.pulseOffset c.pulseOffDelta hr, rfl⟩
    · cases fwd <;> rfl
    · cases fwd <;> rfl
    · cases fwd <;> rfl
  · intro k
    by_cases hk : ∃ c ∈ cs, k = c.id
    · obtain ⟨c, hc, rfl⟩ := hk
      obtain ⟨n, hn⟩ := hsome c hc
      simp [QMap.contains, hval c hc n hn, hn]
    · have hk' : ∀ c ∈ cs, k ≠ c.id := fun c hc he => hk ⟨c, hc, he⟩
      simp [QMap.contains, hout k hk']

/-- C17 on the store that holds note 1, for the move of note 1 by 240 pulses
to key 62, forward: the offset 0 becomes 240. -/
theorem C17_witness :
    (∀ c ∈ [noteMoveData.mk 1 240 62 60], ∃ n n',
        QMap.value? c.id [(1, sampleNote)] = some n
        ∧ QMap.value? c.id
            (applyEvent_NoteMoved sampleDefault [noteMoveData.mk 1 240 62 60] true
              [(1, sampleNote)]) = some n'
        ∧ (true = true →
            n'.pulseOffset = n.pulseOffset + c.pulseOffDelta
            ∧ (-2147483648 ≤ n.pulseOffset.toInt + c.pulseOffDelta.toInt
                ∧ n.pulseOffset.toInt + c.pulseOffDelta.toInt < 2147483648 →
              n'.pulseOffset.toInt = n.pulseOffset.toInt + c.pulseOffDelta.toInt)
            ∧ n'.keyNumber = c.keyNumber)
        ∧ (true = false →
            n'.pulseOffset = n.pulseOffset - c.pulseOffDelta
            ∧ (-2147483648 ≤ n.pulseOffset.toInt - c.pulseOffDelta.toInt
                ∧ n.pulseOffset.toInt - c.pulseOffDelta.toInt < 2147483648 →
              n'.pulseOffset.toInt = n.pulseOffset.toInt - c.pulseOffDelta.toInt)
            ∧ n'.keyNumber = c.prevKeyNumber)
        ∧ n'.id = n.id ∧ n'.lyric = n.lyric ∧ n'.pulseLength = n.pulseLength)
      ∧ (∀ k, (∀ c ∈ [noteMoveData.mk 1 240 62 60], k ≠ c.id) →
          QMap.value? k
            (applyEvent_NoteMoved sampleDefault [noteMoveData.mk 1 240 62 60] true
              [(1, sampleNote)]) = QMap.value? k [(1, sampleNote)])
      ∧ (∀ k, QMap.contains k
            (applyEvent_NoteMoved sampleDefault [noteMoveData.mk 1 240 62 60] true
              [(1, sampleNote)]) = QMap.contains k [(1, sampleNote)])
      ∧ (sampleNote.pulseOffset.toInt + (noteMoveData.mk 1 240 62 60).pulseOffDelta.toInt = 240
          ∧ (QMap.value? 1
              (applyEvent_NoteMoved sampleDefault [noteMoveData.mk 1 240 62 60] true
                [(1, sampleNote)])).map (fun n => n.pulseOffset.toInt) = some 240) :=
  ⟨(C17_move_offset_in_int_arithmetic sampleDefault [(1, sampleNote)]
      [noteMoveData.mk 1 240 62 60] true (by decide) (by decide)).1,
    (C17_move_offset_in_int_arithmetic sampleDefault [(1, sampleNote)]
      [noteMoveData.mk 1 240 62 60] true (by decide) (by decide)).2.1,
    (C17_move_offset_in_int_arithmetic sampleDefault [(1, sampleNote)]
      [noteMoveData.mk 1 240 62 60] true (by decide) (by decide)).2.2,
    by decide⟩

/-- C18. Forward and then backward gives back the store when the event is
well formed for it. For every well-formed store: a resize, a move or a retext
whose changeset ids are pairwise distinct and all in the store, with the
recorded previous values (`prevOffset` and `prevLength`, `prevKeyNumber`,
`prevTxt`) equal to the current values of the notes, applied forward and then
backward, yields exactly the store; and so does an addition that is no delete
event and whose changeset ids are all absent from the store. -/
theorem C18_roundtrip_of_well_formed (d0 : ust_note) (S : QMap) (hS : QMap.WF S) :
    (∀ cs : List noteResizeData, (cs.map noteResizeData.id).Nodup →
        (∀ c ∈ cs, ∃ n, QMap.value? c.id S = some n
          ∧ n.pulseOffset = c.prevOffset ∧ n.pulseLength = c.prevLength) →
        applyEvent_NoteResized d0 cs false (applyEvent_NoteResized d0 cs true S) = S)
      ∧ (∀ cs : List noteMoveData, (cs.map noteMoveData.id).Nodup →
        (∀ c ∈ cs, ∃ n, QMap.value? c.id S = some n ∧ n.keyNumber = c.prevKeyNumber) →
        applyEvent_NoteMoved d0 cs false (applyEvent_NoteMoved d0 cs true S) = S)
      ∧ (∀ cs : List noteTextData, (cs.map noteTextData.id).Nodup →
        (∀ c ∈ cs, ∃ n, QMap.value? c.id S = some n ∧ n.lyric = c.prevTxt) →
        applyEvent_NoteLyrics d0 cs false (applyEvent_NoteLyrics d0 cs true S) = S)
      ∧ (∀ cs : List noteAddData, (∀ c ∈ cs, QMap.contains c.id S = false) →
        applyEvent_NoteAdded cs false false (applyEvent_NoteAdded cs true false S) = S) := by
  refine ⟨?_, ?_, ?_, ?_⟩
  · intro cs _ h
    refine resized_roundtrip d0 cs true hS ?_
    intro c hc
    obtain ⟨n, hn, h1, h2⟩ := h c hc
    refine ⟨n, hn, ?_⟩
    obtain ⟨i, l, o, len, key⟩ := n
    simp only at h1 h2
    subst h1 h2
    rfl
  · intro cs _ h
    refine moved_roundtrip d0 cs true hS ?_
    intro c hc
    obtain ⟨n, hn, h1⟩ := h c hc
    exact ⟨n, hn, h1.symm⟩
  · intro cs _ h
    refine retext_roundtrip d0 cs true hS ?_
    intro c hc
    obtain ⟨n, hn, h1⟩ := h c hc
    refine ⟨n, hn, ?_⟩
    obtain ⟨i, l, o, len, key⟩ := n
    simp only at h1
    subst h1
    rfl
  · intro cs h
    refine added_roundtrip cs true false hS ?_
    have hf : reallyForward true false = true := rfl
    rw [hf]
    simp only [if_true]
    intro c hc
    have := h c hc
    simpa [QMap.contains] using this

/-- C18 on the store that holds note 1: the resize of note 1 from length 480,
its move from key 60, its retext from `la`, and the addition of a note 2. -/
theorem C18_witness :
    applyEvent_NoteResized sampleDefault [noteResizeData.mk 1 0 960 0 480] false
        (applyEvent_NoteResized sampleDefault [noteResizeData.mk 1 0 960 0 480] true
          [(1, sampleNote)]) = [(1, sampleNote)]
      ∧ applyEvent_NoteMoved sampleDefault [noteMoveData.mk 1 240 62 60] false
        (applyEvent_NoteMoved sampleDefault [noteMoveData.mk 1 240 62 60] true
          [(1, sampleNote)]) = [(1, sampleNote)]
      ∧ applyEvent_NoteLyrics sampleDefault [noteTextData.mk 1 "lu" "la"] false
        (applyEvent_NoteLyrics sampleDefault [noteTextData.mk 1 "lu" "la"] true
          [(1, sampleNote)]) = [(1, sampleNote)]
      ∧ applyEvent_NoteAdded [noteAddData.mk 2 "do" 480 480 62] false false
        (applyEvent_NoteAdded [noteAddData.mk 2 "do" 480 480 62] true false
          [(1, sampleNote)]) = [(1, sampleNote)] :=
  ⟨(C18_roundtrip_of_well_formed sampleDefault [(1, sampleNote)] (by decide)).1
      [noteResizeData.mk 1 0 960 0 480] (by decide)
      (fun c hc => by
        rw [List.mem_singleton.mp hc]
        exact ⟨sampleNote, rfl, rfl, rfl⟩),
    (C18_roundtrip_of_well_formed sampleDefault [(1, sampleNote)] (by decide)).2.1
      [noteMoveData.mk 1 240 62 60] (by decide)
      (fun c hc => by
        rw [List.mem_singleton.mp hc]
        exact ⟨sampleNote, rfl, rfl⟩),
    (C18_roundtrip_of_well_formed sampleDefault [(1, sampleNote)] (by decide)).2.2.1
      [noteTextData.mk 1 "lu" "la"] (by decide)
      (fun c hc => by
        rw [List.mem_singleton.mp hc]
        exact ⟨sampleNote, rfl, rfl⟩),
    (C18_roundtrip_of_well_formed sampleDefault [(1, sampleNote)] (by decide)).2.2.2
      [noteAddData.mk 2 "do" 480 480 62] (by decide)⟩

/-! ## The export as a stable rearrangement of the store -/

theorem foldl_append_singleton {α β : Type} (f : α → β) (l : List α) (acc : List β) :
    l.foldl (fun notes key => notes ++ [f key]) acc = acc ++ l.map f := by
  induction l generalizing acc with
  | nil => simp
  | cons a l ih => simp [List.foldl_cons, ih]

/-- In a well-formed store, reading `noteMap[key]` for the keys in order gives
the stored notes in order. -/
theorem keys_map_ref (d0 : ust_note) {m : QMap} (h : QMap.WF m) :
    (QMap.keys m).map (fun k => QMap.ref d0 k m) = m.map Prod.snd := by
  induction m with
  | nil => rfl
  | cons p t ih =>
    obtain ⟨k, v⟩ := p
    have ht : QMap.WF t := by
      simp only [QMap.WF, List.map_cons, List.pairwise_cons] at h; exact h.2
    have hlt : ∀ x ∈ QMap.keys t, k < x := by
      simp only [QMap.WF, List.map_cons, List.pairwise_cons] at h; exact h.1
    simp only [QMap.keys, List.map_cons, List.map_map]
    congr 1
    · simp [QMap.ref, QMap.value?]
    · rw [← ih ht]
      simp only [QMap.keys, List.map_map]
      apply List.map_congr_left
      intro p hp
      have hk : k < p.1 := hlt p.1 (List.mem_map_of_mem Prod.fst hp)
      have hne : ¬ p.1 = k := by omega
      simp [QMap.ref, QMap.value?, hne]

theorem stableInsert_perm {α : Type} (less : α → α → Bool) (x : α) (l : List α) :
    (stableInsert less x l).Perm (x :: l) := by
  induction l with
  | nil => exact List.Perm.refl _
  | cons a l ih =>
    unfold stableInsert
    split_ifs
    · exact (List.Perm.cons a ih).trans (List.Perm.swap x a l)
    · exact List.Perm.refl _

theorem qStableSort_perm {α : Type} (less : α → α → Bool) (l : List α) :
    (qStableSort less l).Perm l := by
  induction l with
  | nil => exact List.Perm.refl _
  | cons a l ih =>
    exact (stableInsert_perm less a _).trans (List.Perm.cons a ih)

/-- The insertion passes only notes with a smaller offset: the notes at one
offset keep their order, the inserted note first. -/
theorem filter_stableInsert (v : CInt) (x : ust_note) (l : List ust_note) :
    (stableInsert dataNotesComparison x l).filter (fun n => decide (n.pulseOffset = v))
      = (x :: l).filter (fun n => decide (n.pulseOffset = v)) := by
  induction l with
  | nil => rfl
  | cons a l ih =>
    unfold stableInsert
    split_ifs with hlt
    · have hax : a.pulseOffset.toInt < x.pulseOffset.toInt := by
        simpa [dataNotesComparison] using hlt
      rw [List.filter_cons, ih]
      by_cases hx : x.pulseOffset = v
      · have ha : ¬ a.pulseOffset = v := by
          intro hav
          rw [hav, hx] at hax
          exact lt_irrefl _ hax
        simp [List.filter_cons, hx, ha]
      · simp [List.filter_cons, hx]
    · rfl

/-- The sort is stable: the notes at one offset are in the order they had. -/
theorem filter_qStableSort (v : CInt) (l : List ust_note) :
    (qStableSort dataNotesComparison l).filter (fun n => decide (n.pulseOffset = v))
      = l.filter (fun n => decide (n.pulseOffset = v)) := by
  induction l with
  | nil => rfl
  | cons a l ih =>
    show (stableInsert dataNotesComparison a (qStableSort dataNotesComparison l)).filter _ = _
    rw [filter_stableInsert, List.filter_cons, List.filter_cons, ih]

theorem ustRef_notes (d0 : ust_note) (s : qtauSession) :
    (ustRef d0 s).data.notes
      = qStableSort dataNotesComparison
          ((QMap.keys s.noteMap).map (fun k => QMap.ref d0 k s.noteMap)) := by
  unfold ustRef
  simp only [foldl_append_singleton, List.nil_append]

/-- C19. For every (well-formed) note store and whatever `data.notes` held
before the call, the list `ustRef` returns is a rearrangement of the stored
notes, each stored note once and nothing else, and its length is the number
of ids of the store; the notes at one `pulseOffset` are in the order in which their ids come in
`noteMap.keys()` (the sort is stable); and a second call returns the same. -/
theorem C19_ustRef_stable_permutation (d0 : ust_note) (s : qtauSession)
    (hS : QMap.WF s.noteMap) :
    List.Perm (ustRef d0 s).data.notes (s.noteMap.map Prod.snd)
      ∧ (ustRef d0 s).data.notes.length = (QMap.keys s.noteMap).length
      ∧ (∀ v : CInt,
          (ustRef d0 s).data.notes.filter (fun n => decide (n.pulseOffset = v))
            = ((QMap.keys s.noteMap).map (fun k => QMap.ref d0 k s.noteMap)).filter
                (fun n => decide (n.pulseOffset = v)))
      ∧ (∀ notes : List ust_note,
          (ustRef d0 { s with data := { s.data with notes := notes } }).data.notes
            = (ustRef d0 s).data.notes)
      ∧ ustRef d0 (ustRef d0 s) = ustRef d0 s := by
  have hp : List.Perm (ustRef d0 s).data.notes (s.noteMap.map Prod.snd) := by
    rw [ustRef_notes, ← keys_map_ref d0 hS]
    exact qStableSort_perm _ _
  refine ⟨hp, ?_, ?_, ?_, rfl⟩
  · rw [hp.length_eq]
    simp [QMap.keys]
  · intro v
    rw [ustRef_notes]
    exact filter_qStableSort v _
  · intro notes
    rfl

/-- C19 on a store with three notes, two of them at the offset 480. -/
theorem C19_witness :
    List.Perm (ustRef sampleDefault { newSession with noteMap := sampleStoreThree }).data.notes
        (sampleStoreThree.map Prod.snd)
      ∧ (ustRef sampleDefault { newSession with noteMap := sampleStoreThree }).data.notes.length
          = (QMap.keys sampleStoreThree).length
      ∧ (∀ v : CInt,
          (ustRef sampleDefault { newSession with noteMap := sampleStoreThree }).data.notes.filter
              (fun n => decide (n.pulseOffset = v))
            = ((QMap.keys sampleStoreThree).map
                (fun k => QMap.ref sampleDefault k sampleStoreThree)).filter
                (fun n => decide (n.pulseOffset = v)))
      ∧ (∀ notes : List ust_note,
          (ustRef sampleDefault
            { newSession with noteMap := sampleStoreThree,
                              data := { newSession.data with notes := notes } }).data.notes
            = (ustRef sampleDefault { newSession with noteMap := sampleStoreThree }).data.notes)
      ∧ ustRef sampleDefault
          (ustRef sampleDefault { newSession with noteMap := sampleStoreThree })
          = ustRef sampleDefault { newSession with noteMap := sampleStoreThree } :=
  C19_ustRef_stable_permutation sampleDefault { newSession with noteMap := sampleStoreThree }
    (by decide)

/-! ## The background audio handle -/

theorem setPlaybackState_musicWave (st : EAudioPlayback) (s : qtauSession) :
    (setPlaybackState st s).musicWave = s.musicWave := by
  unfold setPlaybackState
  split_ifs <;> rfl

theorem stackChanged_musicWave (s : qtauSession) :
    (stackChanged s).musicWave = s.musicWave := by
  unfold stackChanged
  dsimp only
  split_ifs <;> simp [setPlaybackState_musicWave]

theorem processEvent_musicWave (d0 : ust_note) (e : Option qtauEvent) (s : qtauSession) :
    (processEvent d0 e s).2.musicWave = s.musicWave := by
  cases e with
  | none => rfl
  | some ev =>
    obtain ⟨data, fwd, sp⟩ := ev
    cases data <;> rfl

theorem onUIEvent_musicWave (d0 : ust_note) (e : Option qtauEvent) (s : qtauSession) :
    (onUIEvent d0 e s).musicWave = s.musicWave := by
  cases e with
  | none => rfl
  | some ev =>
    simp only [onUIEvent]
    split_ifs
    · simp only [storeEvent, stackChanged_musicWave]
      exact processEvent_musicWave d0 (some ev) s
    · exact processEvent_musicWave d0 (some ev) s

theorem undo_musicWave (d0 : ust_note) (s : qtauSession) :
    (undo d0 s).musicWave = s.musicWave := by
  obtain ⟨ev, fut, nm, data, dn, fp, im, hsp, ps, vw, mw, sg, lg⟩ := s
  cases ev with
  | nil => rfl
  | cons e rest =>
    simp only [undo, stackChanged_musicWave]
    exact processEvent_musicWave d0 _ _

theorem redo_musicWave (d0 : ust_note) (s : qtauSession) :
    (redo d0 s).musicWave = s.musicWave := by
  obtain ⟨ev, fut, nm, data, dn, fp, im, hsp, ps, vw, mw, sg, lg⟩ := s
  cases fut with
  | nil => rfl
  | cons e rest =>
    simp only [redo, stackChanged_musicWave]
    exact processEvent_musicWave d0 _ _

theorem setSaved_musicWave (s : qtauSession) : (setSaved s).musicWave = s.musicWave := by
  unfold setSaved setModified
  dsimp only
  split_ifs <;> rfl

theorem loadUST_musicWave (ustFromStrings : List String → ust) (baseName : String → String)
    (fileName : String) (file : Option (List String)) (s : qtauSession) :
    (loadUST ustFromStrings baseName fileName file s).2.musicWave = s.musicWave := by
  cases file with
  | none => rfl
  | some ustStrings =>
    unfold loadUST
    dsimp only
    split_ifs <;> simp [setPlaybackState_musicWave, clearHistory]

theorem setSynthesizedVocal_musicWave (a : Nat) (s : qtauSession) :
    (setSynthesizedVocal a s).musicWave = s.musicWave := by
  unfold setSynthesizedVocal
  dsimp only
  split_ifs <;> rfl

theorem setBackgroundAudio_musicWave (a : Nat) (s : qtauSession) :
    (setBackgroundAudio a s).musicWave = some a := by
  unfold setBackgroundAudio
  dsimp only
  split_ifs with h1 h2 h3 <;> simp_all

theorem stackChanged_playSt_of_held (s : qtauSession)
    (h : ¬ (s.noteMap = [] ∧ s.musicWave = none)) :
    (stackChanged s).playSt = EAudioPlayback.needsSynth := by
  obtain ⟨ev, fut, nm, data, dn, fp, im, hsp, ps, vw, mw, sg, lg⟩ := s
  cases nm <;> cases mw <;> cases ps <;>
    simp_all [stackChanged, setPlaybackState, QMap.isEmpty]

/-- C20. In every session reachable from the constructor through `onUIEvent`,
`undo`, `redo`, `setSaved`, `loadUST`, `setSynthesizedVocal`,
`setBackgroundAudio` and `setPlaybackState`, the background audio handle
`music.musicWave` is held; so on every such session `stackChanged` sets the
playback state to `needsSynth` and never to `noAudio`, also when the note
store is empty. -/
theorem C20_background_audio_always_held (d0 : ust_note)
    (ustFromStrings : List String → ust) (baseName : String → String) (s : qtauSession)
    (h : Reachable d0 ustFromStrings baseName s) :
    s.musicWave.isSome = true
      ∧ (stackChanged s).playSt = EAudioPlayback.needsSynth
      ∧ (stackChanged s).playSt ≠ EAudioPlayback.noAudio := by
  have held : s.musicWave.isSome = true := by
    induction h with
    | create => rfl
    | onUIEvent e s _ ih => rw [onUIEvent_musicWave]; exact ih
    | undo s _ ih => rw [undo_musicWave]; exact ih
    | redo s _ ih => rw [redo_musicWave]; exact ih
    | setSaved s _ ih => rw [setSaved_musicWave]; exact ih
    | loadUST fileName file s _ ih => rw [loadUST_musicWave]; exact ih
    | setSynthesizedVocal a s _ ih => rw [setSynthesizedVocal_musicWave]; exact ih
    | setBackgroundAudio a s _ ih => rw [setBackgroundAudio_musicWave]; rfl
    | setPlaybackState st s _ ih => rw [setPlaybackState_musicWave]; exact ih
  have hne : ¬ (s.noteMap = [] ∧ s.musicWave = none) := by
    rintro ⟨_, hm⟩
    rw [hm] at held
    cases held
  have hst := stackChanged_playSt_of_held s hne
  refine ⟨held, hst, ?_⟩
  rw [hst]
  intro hc
  cases hc

/-- C20 on the session reached by the commit of an addition and its undo,
where the note store is empty again. -/
theorem C20_witness :
    (undo sampleDefault (onUIEvent sampleDefault (some sampleAdd) newSession)).noteMap = []
      ∧ (undo sampleDefault
          (onUIEvent sampleDefault (some sampleAdd) newSession)).musicWave.isSome = true
      ∧ (stackChanged (undo sampleDefault
          (onUIEvent sampleDefault (some sampleAdd) newSession))).playSt
          = EAudioPlayback.needsSynth
      ∧ (stackChanged (undo sampleDefault
          (onUIEvent sampleDefault (some sampleAdd) newSession))).playSt
          ≠ EAudioPlayback.noAudio :=
  ⟨by decide,
    C20_background_audio_always_held sampleDefault sampleParse sampleBaseName _
      (Reachable.undo _ (Reachable.onUIEvent _ _ Reachable.create))⟩

end QTau
